import Mathlib

/-!
Verification of the homsearch repository (hom.py) against its specification.

The graph model is a shallow embedding of the sage Graph objects used by the
code: a finite (duplicate-free) vertex list together with a boolean adjacency
function that is symmetric, loopless and supported on the vertex list — the
sage graphs built by the repository are simple undirected graphs.

Python dicts are embedded as association lists with first-match lookup,
and the missing compiled search primitive extend_hom (hom_c.pyx is absent
from the sources) is treated as an oracle parameter E; claims that depend on
it assume, as they state, that the oracle returns only valid homomorphisms.
-/

/-! ## Association lists (Python dicts) -/

def alookup {α β : Type} [DecidableEq α] : List (α × β) → α → Option β
  | [], _ => none
  | (k, b) :: t, a => if k = a then some b else alookup t a

def applyMap {α : Type} [DecidableEq α] (m : List (α × α)) (x : α) : α :=
  (alookup m x).getD x

theorem alookup_append {α β : Type} [DecidableEq α] (l₁ l₂ : List (α × β)) (a : α) :
    alookup (l₁ ++ l₂) a = ((alookup l₁ a).orElse (fun _ => alookup l₂ a)) := by
  induction l₁ with
  | nil => simp [alookup, Option.orElse]
  | cons kb t ih =>
    obtain ⟨k, b⟩ := kb
    by_cases h : k = a <;> simp [alookup, h, ih, Option.orElse]

theorem alookup_append_of_some {α β : Type} [DecidableEq α] {l₁ : List (α × β)}
    {a : α} {b : β} (l₂ : List (α × β)) (h : alookup l₁ a = some b) :
    alookup (l₁ ++ l₂) a = some b := by
  rw [alookup_append, h]; rfl

theorem alookup_isSome_append {α β : Type} [DecidableEq α] {l₁ : List (α × β)}
    {a : α} (l₂ : List (α × β)) (h : (alookup l₁ a).isSome = true) :
    (alookup (l₁ ++ l₂) a).isSome = true := by
  obtain ⟨b, hb⟩ := Option.isSome_iff_exists.mp h
  rw [alookup_append_of_some l₂ hb]; rfl

theorem alookup_of_mem_of_nodup {α β : Type} [DecidableEq α] {l : List (α × β)}
    {a : α} {b : β} (hmem : (a, b) ∈ l) (hnd : (l.map Prod.fst).Nodup) :
    alookup l a = some b := by
  induction l with
  | nil => cases hmem
  | cons kb t ih =>
    obtain ⟨k, c⟩ := kb
    simp only [List.map_cons, List.nodup_cons] at hnd
    rcases List.mem_cons.mp hmem with h | h
    · injection h with h1 h2
      subst h1; subst h2
      simp [alookup]
    · have hmem2 : a ∈ t.map Prod.fst := List.mem_map.mpr ⟨(a, b), h, rfl⟩
      have hk : k ≠ a := fun he => hnd.1 (by rw [he]; exact hmem2)
      simp [alookup, hk, ih h hnd.2]

theorem alookup_mem {α β : Type} [DecidableEq α] {l : List (α × β)} {a : α} {b : β}
    (h : alookup l a = some b) : (a, b) ∈ l := by
  induction l with
  | nil => simp [alookup] at h
  | cons kb t ih =>
    obtain ⟨k, c⟩ := kb
    by_cases hk : k = a
    · subst hk
      simp [alookup] at h
      subst h; exact List.mem_cons_self _ _
    · simp [alookup, hk] at h
      exact List.mem_cons_of_mem _ (ih h)

/-! ## The graph model -/

structure Graph (V : Type) where
  verts : List V
  nodup : verts.Nodup
  adj : V → V → Bool
  symm : ∀ u v, adj u v = adj v u
  loopless : ∀ v, adj v v = false
  adj_mem : ∀ u v, adj u v = true → u ∈ verts ∧ v ∈ verts

section GraphOps

variable {V : Type} [DecidableEq V]

/-- Build a simple undirected graph from a vertex list and an edge list
(self-loops and edges touching non-vertices are dropped, as the repository
never creates them). -/
def mkGraph (vertsIn : List V) (edgesIn : List (V × V)) : Graph V :=
  let vs := vertsIn.dedup
  let kept := edgesIn.filter fun e =>
    decide (e.1 ∈ vs) && decide (e.2 ∈ vs) && decide (e.1 ≠ e.2)
  { verts := vs
    nodup := vertsIn.nodup_dedup
    adj := fun u v => decide ((u, v) ∈ kept ∨ (v, u) ∈ kept)
    symm := fun u v => decide_eq_decide.mpr or_comm
    loopless := fun v => by
      simp only [decide_eq_false_iff_not]
      rintro (h | h) <;>
      · have := (List.mem_filter.mp h).2
        simp at this
    adj_mem := fun u v h => by
      have h' := of_decide_eq_true h
      rcases h' with h' | h' <;>
      · have := (List.mem_filter.mp h').2
        simp only [Bool.and_eq_true, decide_eq_true_eq] at this
        exact ⟨by tauto, by tauto⟩ }

def Graph.order (G : Graph V) : Nat := G.verts.length

/-- Edge count of a simple graph: half the degree sum. -/
def Graph.size (G : Graph V) : Nat :=
  ((G.verts.map fun u => (G.verts.filter fun v => G.adj u v).length).sum) / 2

def Graph.neighbors (G : Graph V) (v : V) : List V :=
  G.verts.filter fun u => G.adj v u

/-- G.copy() followed by delete_vertex(v0): remove v0 and its incident edges. -/
def Graph.deleteVertex (G : Graph V) (v0 : V) : Graph V where
  verts := G.verts.erase v0
  nodup := G.nodup.erase v0
  adj := fun u v => if u = v0 ∨ v = v0 then false else G.adj u v
  symm := fun u v => by
    dsimp only
    by_cases h : u = v0 ∨ v = v0
    · rw [if_pos h, if_pos (Or.symm h)]
    · rw [if_neg h, if_neg (fun hc => h (Or.symm hc)), G.symm]
  loopless := fun v => by
    dsimp only
    by_cases h : v = v0 ∨ v = v0
    · rw [if_pos h]
    · rw [if_neg h]; exact G.loopless v
  adj_mem := fun u v h => by
    dsimp only at h
    by_cases hc : u = v0 ∨ v = v0
    · rw [if_pos hc] at h; cases h
    · rw [if_neg hc] at h
      push_neg at hc
      have := G.adj_mem u v h
      exact ⟨(List.mem_erase_of_ne hc.1).mpr this.1,
             (List.mem_erase_of_ne hc.2).mpr this.2⟩

/-- G.subgraph(vc): the induced subgraph on the vertices of vc present in G. -/
def Graph.subgraph (G : Graph V) (vc : List V) : Graph V where
  verts := G.verts.filter fun v => decide (v ∈ vc)
  nodup := G.nodup.filter _
  adj := fun u v => G.adj u v && decide (u ∈ vc) && decide (v ∈ vc)
  symm := fun u v => by dsimp only; rw [G.symm]; ac_rfl
  loopless := fun v => by dsimp only; rw [G.loopless]; rfl
  adj_mem := fun u v h => by
    dsimp only at h
    simp only [Bool.and_eq_true, decide_eq_true_eq] at h
    have := G.adj_mem u v h.1.1
    exact ⟨List.mem_filter.mpr ⟨this.1, by simp [h.1.2]⟩,
           List.mem_filter.mpr ⟨this.2, by simp [h.2]⟩⟩

end GraphOps

/-! ## The homomorphism-search oracle

The search primitive extend_hom is implemented by the compiled extension
hom_c.pyx, which is absent from the sources; the functions below that call it
take it as a parameter E.  A concrete instance faithful to its contract is
given by specExtendHom. -/

section Oracle

variable {V : Type} [DecidableEq V]

/-- All total maps from dom into tgt, as association lists (dicts). -/
def allTotalMaps (dom : List V) (tgt : List V) : List (List (V × V)) :=
  dom.foldr (fun v acc => tgt.flatMap fun t => acc.map fun m => (v, t) :: m) [[]]

/-- Edge preservation check used by the spec-modelled search. -/
def isHomB (G H : Graph V) (m : List (V × V)) : Bool :=
  G.verts.all fun u => G.verts.all fun v =>
    !(G.adj u v) || H.adj (applyMap m u) (applyMap m v)

/-- Modelled from the spec: the backtracking search extendHomomorphism of
section 4.3 (the source hom_c.pyx of extend_hom is absent from the
repository).  It returns homomorphisms extending the empty seed map, capped
at the limit 1 used by every call site in hom.py; this instance enumerates all
total maps in a fixed deterministic order and keeps the edge-preserving ones,
which realises the contract of section 4.3 for limit 1. -/
def specExtendHom (G H : Graph V) : List (List (V × V)) :=
  ((allTotalMaps G.verts H.verts).filter fun m => isHomB G H m).take 1

theorem allTotalMaps_mem {dom tgt : List V} {m : List (V × V)}
    (h : m ∈ allTotalMaps dom tgt) : ∀ kv ∈ m, kv.1 ∈ dom ∧ kv.2 ∈ tgt := by
  induction dom generalizing m with
  | nil =>
    simp [allTotalMaps] at h
    subst h; intro kv hkv; cases hkv
  | cons v rest ih =>
    simp only [allTotalMaps, List.foldr_cons, List.mem_flatMap, List.mem_map] at h
    obtain ⟨t, ht, m', hm', rfl⟩ := h
    intro kv hkv
    rcases List.mem_cons.mp hkv with rfl | hkv'
    · exact ⟨List.mem_cons_self _ _, ht⟩
    · have := ih hm' kv hkv'
      exact ⟨List.mem_cons_of_mem _ this.1, this.2⟩

/-- The spec-modelled search only returns maps whose values are vertices of
the target graph. -/
theorem specExtendHom_values {G H : Graph V} {m : List (V × V)}
    (h : m ∈ specExtendHom G H) : ∀ kv ∈ m, kv.2 ∈ H.verts := by
  have h1 : m ∈ (allTotalMaps G.verts H.verts).filter fun m => isHomB G H m :=
    List.mem_of_mem_take h
  have h2 := (List.mem_filter.mp h1).1
  intro kv hkv
  exact (allTotalMaps_mem h2 kv hkv).2

end Oracle

/-! ## Core reduction: find_hom_image, check_subcore, find_core -/

section CoreReduction

variable {V : Type} [DecidableEq V]

/-- hom.py find_hom_image, lines 63-80: for each candidate v0, delete v0 and
ask the search for one homomorphism; on success return the subgraph induced
on the value set of the first map. -/
def findHomImageAux (E : Graph V → Graph V → List (List (V × V))) (G : Graph V) :
    List V → Option (Graph V)
  | [] => none
  | v0 :: rest =>
    match E G (G.deleteVertex v0) with
    | [] => findHomImageAux E G rest
    | m :: _ => some (G.subgraph (m.map Prod.snd))

def findHomImage (E : Graph V → Graph V → List (List (V × V))) (G : Graph V)
    (candidates : Option (List V)) : Option (Graph V) :=
  findHomImageAux E G (candidates.getD G.verts)

/-- hom.py check_subcore, lines 83-99: textually the same algorithm as
find_hom_image (the source duplicates the code). -/
def checkSubcoreAux (E : Graph V → Graph V → List (List (V × V))) (G : Graph V) :
    List V → Option (Graph V)
  | [] => none
  | v0 :: rest =>
    match E G (G.deleteVertex v0) with
    | [] => checkSubcoreAux E G rest
    | m :: _ => some (G.subgraph (m.map Prod.snd))

def checkSubcore (E : Graph V → Graph V → List (List (V × V))) (G : Graph V)
    (candidates : Option (List V)) : Option (Graph V) :=
  checkSubcoreAux E G (candidates.getD G.verts)

/-- The while loop of find_core, lines 115-117: keep replacing the graph by
find_hom_image of it (with the default full candidate list) until that
returns None; fuel makes the recursion structural, and by the strict
vertex-count decrease (coreLoop_stable) any fuel of at least order G gives
the loop's limit. -/
def coreLoop (E : Graph V → Graph V → List (List (V × V))) :
    Nat → Graph V → Graph V
  | 0, G => G
  | fuel + 1, G =>
    match findHomImage E G none with
    | none => G
    | some C => coreLoop E fuel C

/-- hom.py find_core, lines 102-118. -/
def findCore (E : Graph V → Graph V → List (List (V × V))) (G : Graph V)
    (vertex_trans : Bool) : Graph V :=
  if G.size = (G.order * (G.order - 1)) / 2 then G
  else
    let rem0 : Option (List V) := if vertex_trans then some (G.verts.take 1) else none
    match checkSubcore E G rem0 with
    | none => G
    | some G1 => coreLoop E (G1.order + 1) G1

end CoreReduction

/-! ## Helper lemmas about core reduction -/

section CoreReductionLemmas

variable {V : Type} [DecidableEq V]

/-- Oracle validity assumption stated by the claims: every map the search
returns has all its values among the target graph's vertices. -/
def OracleValuesOk (E : Graph V → Graph V → List (List (V × V))) : Prop :=
  ∀ G H : Graph V, ∀ m ∈ E G H, ∀ kv ∈ m, kv.2 ∈ H.verts

theorem specExtendHom_valuesOk : OracleValuesOk (specExtendHom (V := V)) :=
  fun _ H _ hm kv hkv => specExtendHom_values hm kv hkv

theorem findHomImageAux_eq_some {E : Graph V → Graph V → List (List (V × V))}
    {G : Graph V} {cands : List V} {C : Graph V}
    (h : findHomImageAux E G cands = some C) :
    ∃ v0 m ms pre post,
      cands = pre ++ v0 :: post ∧
      (∀ v ∈ pre, E G (G.deleteVertex v) = []) ∧
      E G (G.deleteVertex v0) = m :: ms ∧
      C = G.subgraph (m.map Prod.snd) := by
  induction cands with
  | nil => simp [findHomImageAux] at h
  | cons v0 rest ih =>
    rw [findHomImageAux] at h
    cases hE0 : E G (G.deleteVertex v0) with
    | nil =>
      rw [hE0] at h
      obtain ⟨w0, m, ms, pre, post, h1, h2, h3, h4⟩ := ih h
      refine ⟨w0, m, ms, v0 :: pre, post, by rw [h1]; rfl, ?_, h3, h4⟩
      intro v hv
      rcases List.mem_cons.mp hv with rfl | hv'
      · exact hE0
      · exact h2 v hv'
    | cons m ms =>
      rw [hE0] at h
      injection h with h'
      refine ⟨v0, m, ms, [], rest, rfl, ?_, hE0, h'.symm⟩
      intro v hv
      cases hv

theorem findHomImageAux_eq_none {E : Graph V → Graph V → List (List (V × V))}
    {G : Graph V} {cands : List V}
    (h : ∀ v ∈ cands, E G (G.deleteVertex v) = []) :
    findHomImageAux E G cands = none := by
  induction cands with
  | nil => rfl
  | cons v0 rest ih =>
    rw [findHomImageAux, h v0 (List.mem_cons_self _ _)]
    exact ih fun v hv => h v (List.mem_cons_of_mem _ hv)

theorem subgraph_drops_vertex {G : Graph V} {v0 : V} {vals : List V}
    (hv0 : v0 ∈ G.verts) (hnv : v0 ∉ vals) :
    v0 ∉ (G.subgraph vals).verts ∧ (G.subgraph vals).order < G.order := by
  constructor
  · intro hmem
    exact hnv (of_decide_eq_true (List.mem_filter.mp hmem).2)
  · exact List.length_filter_lt_length_iff_exists.mpr ⟨v0, hv0, by simp [hnv]⟩

theorem oracle_head_not_mem {E : Graph V → Graph V → List (List (V × V))}
    (hE : OracleValuesOk E) {G : Graph V} {v0 : V} {m : List (V × V)}
    {ms : List (List (V × V))} (hhd : E G (G.deleteVertex v0) = m :: ms) :
    v0 ∉ m.map Prod.snd := by
  intro hmem
  obtain ⟨kv, hkv, hsnd⟩ := List.mem_map.mp hmem
  have hv := hE G (G.deleteVertex v0) m (hhd ▸ List.mem_cons_self m ms) kv hkv
  rw [hsnd] at hv
  exact G.nodup.not_mem_erase hv

theorem findHomImage_some_order_lt {E : Graph V → Graph V → List (List (V × V))}
    (hE : OracleValuesOk E) {G : Graph V} {cands : Option (List V)} {C : Graph V}
    (h : findHomImage E G cands = some C)
    (hc : ∀ v ∈ cands.getD G.verts, v ∈ G.verts) : C.order < G.order := by
  obtain ⟨v0, m, ms, pre, post, h1, _, h3, h4⟩ := findHomImageAux_eq_some h
  have hv0 : v0 ∈ G.verts := hc v0 (by rw [h1]; exact List.mem_append_right _ (List.mem_cons_self _ _))
  have := subgraph_drops_vertex hv0 (oracle_head_not_mem hE h3)
  rw [h4]
  exact this.2

theorem coreLoop_stable_aux {E : Graph V → Graph V → List (List (V × V))}
    (hE : OracleValuesOk E) :
    ∀ (fuel : Nat) (G : Graph V), G.order ≤ fuel →
      ∀ extra, coreLoop E (fuel + extra) G = coreLoop E fuel G := by
  intro fuel
  induction fuel with
  | zero =>
    intro G hG extra
    have hverts : G.verts = [] := List.length_eq_zero.mp (Nat.le_zero.mp hG)
    have hnone : findHomImage E G none = none := by
      apply findHomImageAux_eq_none
      intro v hv
      rw [hverts] at hv
      cases hv
    cases extra with
    | zero => rfl
    | succ e =>
      show coreLoop E (0 + (e + 1)) G = G
      rw [Nat.zero_add, coreLoop, hnone]
  | succ f ih =>
    intro G hG extra
    have hstep : f + 1 + extra = (f + extra) + 1 := by omega
    rw [hstep, coreLoop, coreLoop]
    cases hfind : findHomImage E G none with
    | none => rfl
    | some C =>
      have hlt : C.order < G.order := findHomImage_some_order_lt hE hfind (fun _ h => h)
      exact ih C (by omega) extra

theorem coreLoop_fixpoint {E : Graph V → Graph V → List (List (V × V))}
    (hE : OracleValuesOk E) :
    ∀ (fuel : Nat) (G : Graph V), G.order < fuel →
      findHomImage E (coreLoop E fuel G) none = none := by
  intro fuel
  induction fuel with
  | zero => intro G hG; omega
  | succ f ih =>
    intro G hG
    rw [coreLoop]
    cases hfind : findHomImage E G none with
    | none => exact hfind
    | some C =>
      have hlt : C.order < G.order := findHomImage_some_order_lt hE hfind (fun _ h => h)
      exact ih C (by omega)

end CoreReductionLemmas

/-! ## Concrete example graphs used by witnesses and counterexamples -/

/-- The disjoint union of two single-edge graphs on vertices 0-1 and 2-3. -/
def exUnion : Graph Nat := mkGraph [0, 1, 2, 3] [(0, 1), (2, 3)]

/-- A triangle on 0, 2, 3 with the pendant vertex 1 attached to 0. -/
def exPend : Graph Nat := mkGraph [0, 1, 2, 3] [(0, 2), (0, 3), (2, 3), (0, 1)]

/-- The complete graph on three vertices. -/
def exK3 : Graph Nat := mkGraph [0, 1, 2] [(0, 1), (0, 2), (1, 2)]

/-! ## Claim C10 -/

/-- C10: check_subcore and find_hom_image are extensionally equal — the source
duplicates the algorithm verbatim, so for every oracle, graph and candidate
list (including the default of all vertices) the two return the same result. -/
theorem check_subcore_eq_find_hom_image {V : Type} [DecidableEq V]
    (E : Graph V → Graph V → List (List (V × V))) (G : Graph V)
    (candidates : Option (List V)) :
    checkSubcore E G candidates = findHomImage E G candidates := by
  show checkSubcoreAux E G (candidates.getD G.verts) = findHomImageAux E G (candidates.getD G.verts)
  generalize candidates.getD G.verts = l
  induction l with
  | nil => rfl
  | cons v0 rest ih =>
    rw [checkSubcoreAux, findHomImageAux]
    cases E G (G.deleteVertex v0) with
    | nil => exact ih
    | cons m ms => rfl

/-! ## Claim C6 -/

/-- C6: when the edge count equals order*(order-1)/2 (a complete graph),
find_core returns the input graph itself immediately — for every oracle and
independently of the vertex-transitive flag, so no reduction is attempted. -/
theorem find_core_complete_returns_input {V : Type} [DecidableEq V]
    (E : Graph V → Graph V → List (List (V × V))) (G : Graph V) (vt : Bool)
    (h : G.size = (G.order * (G.order - 1)) / 2) : findCore E G vt = G := by
  unfold findCore
  rw [if_pos h]

theorem find_core_complete_returns_input_witness :
    exK3.size = (exK3.order * (exK3.order - 1)) / 2 ∧
    findCore specExtendHom exK3 true = exK3 ∧
    findCore (fun _ _ => []) exK3 false = exK3 :=
  ⟨by decide,
   find_core_complete_returns_input specExtendHom exK3 true (by decide),
   find_core_complete_returns_input (fun _ _ => []) exK3 false (by decide)⟩

/-! ## Claim C5 -/

/-- C5: under the claim's assumption that the search returns only valid
homomorphisms into the vertex-deleted copy, a successful find_hom_image
returns the subgraph of G induced on the value set of the first witness map
for the first succeeding candidate; the deleted candidate is not a vertex of
the result and the order strictly decreases.  When no candidate yields a
witness the function returns None rather than an error. -/
theorem find_hom_image_spec {V : Type} [DecidableEq V]
    (E : Graph V → Graph V → List (List (V × V))) (G : Graph V)
    (candidates : Option (List V)) (hE : OracleValuesOk E)
    (hc : ∀ v ∈ candidates.getD G.verts, v ∈ G.verts) :
    (∀ C, findHomImage E G candidates = some C →
        ∃ v0 m ms pre post,
          candidates.getD G.verts = pre ++ v0 :: post ∧
          (∀ v ∈ pre, E G (G.deleteVertex v) = []) ∧
          E G (G.deleteVertex v0) = m :: ms ∧
          C = G.subgraph (m.map Prod.snd) ∧
          v0 ∉ C.verts ∧ C.order < G.order)
    ∧ ((∀ v ∈ candidates.getD G.verts, E G (G.deleteVertex v) = []) →
        findHomImage E G candidates = none) := by
  constructor
  · intro C h
    obtain ⟨v0, m, ms, pre, post, h1, h2, h3, h4⟩ := findHomImageAux_eq_some h
    have hv0 : v0 ∈ G.verts :=
      hc v0 (by rw [h1]; exact List.mem_append_right _ (List.mem_cons_self _ _))
    have hdrop := subgraph_drops_vertex hv0 (oracle_head_not_mem hE h3)
    exact ⟨v0, m, ms, pre, post, h1, h2, h3, h4, h4 ▸ hdrop.1, h4 ▸ hdrop.2⟩
  · exact findHomImageAux_eq_none

theorem find_hom_image_spec_witness :
    ∃ v0 m ms pre post,
      exUnion.verts = pre ++ v0 :: post ∧
      (∀ v ∈ pre, specExtendHom exUnion (exUnion.deleteVertex v) = []) ∧
      specExtendHom exUnion (exUnion.deleteVertex v0) = m :: ms ∧
      exUnion.subgraph [2, 3, 2, 3] = exUnion.subgraph (m.map Prod.snd) ∧
      v0 ∉ (exUnion.subgraph [2, 3, 2, 3]).verts ∧
      (exUnion.subgraph [2, 3, 2, 3]).order < exUnion.order :=
  (find_hom_image_spec specExtendHom exUnion none specExtendHom_valuesOk
      (fun _ h => h)).1 (exUnion.subgraph [2, 3, 2, 3]) (by rfl)

/-! ## Claim C7 -/

/-- C7: under the claim's oracle assumption, every successful reduction step
strictly decreases vertex count, and therefore the reduction loop of
find_core is already stationary at fuel order(G): giving it any extra fuel
beyond order(G) iterations does not change its result. -/
theorem find_core_reduction_terminates {V : Type} [DecidableEq V]
    (E : Graph V → Graph V → List (List (V × V))) (hE : OracleValuesOk E) :
    (∀ (G : Graph V) (cands : Option (List V)) (C : Graph V),
        (∀ v ∈ cands.getD G.verts, v ∈ G.verts) →
        findHomImage E G cands = some C → C.order < G.order)
    ∧ ∀ (G : Graph V) (extra : Nat),
        coreLoop E (G.order + extra) G = coreLoop E G.order G :=
  ⟨fun _ _ _ hc h => findHomImage_some_order_lt hE h hc,
   fun G extra => coreLoop_stable_aux hE G.order G (Nat.le_refl _) extra⟩

theorem find_core_reduction_terminates_witness :
    (exUnion.subgraph [2, 3, 2, 3]).order < exUnion.order ∧
    coreLoop specExtendHom (exUnion.order + 7) exUnion = coreLoop specExtendHom exUnion.order exUnion :=
  ⟨(find_core_reduction_terminates specExtendHom specExtendHom_valuesOk).1
      exUnion none (exUnion.subgraph [2, 3, 2, 3]) (fun _ h => h) (by rfl),
   (find_core_reduction_terminates specExtendHom specExtendHom_valuesOk).2 exUnion 7⟩

/-! ## Claim C4

The claim asserts that with the vertex-transitive flag, every reduction step
of the loop restricts the candidates to a single representative vertex and
that the loop runs until no further reduction exists.  In the code only the
FIRST attempt (the check_subcore call) receives the single representative:
when it fails, find_core returns immediately even if the graph is reducible
through other candidates, and when it succeeds the subsequent loop iterations
use the full vertex set. -/

/-- C4 counterexample: exPend is not complete, the vertex-transitive flag is
set, yet find_core returns the input graph unchanged (its vertex list is that
of exPend) although a further reduction exists (find_hom_image with the
default full candidate list succeeds on the returned graph), because the
single-representative attempt on vertex 0 fails while deleting vertex 1
has a homomorphism witness. -/
theorem find_core_vt_counterexample :
    exPend.size ≠ (exPend.order * (exPend.order - 1)) / 2 ∧
    (findCore specExtendHom exPend true).verts = exPend.verts ∧
    (findHomImage specExtendHom (findCore specExtendHom exPend true) none).isSome = true := by
  refine ⟨by decide, by rfl, by rfl⟩

/-- C4 amended: with the vertex-transitive flag on a non-complete graph, only
the first reduction attempt uses the single representative candidate.  If that
attempt fails, find_core returns G immediately (even when G is reducible via
other candidates, as the counterexample shows); if it succeeds, the loop
continues with the full candidate list on each subsequent graph and — under
the claims' oracle assumption — stops exactly at a graph allowing no further
default-candidate reduction. -/
theorem find_core_vt_spec {V : Type} [DecidableEq V]
    (E : Graph V → Graph V → List (List (V × V))) (G : Graph V)
    (hE : OracleValuesOk E)
    (hnc : ¬ G.size = (G.order * (G.order - 1)) / 2) :
    (checkSubcore E G (some (G.verts.take 1)) = none → findCore E G true = G)
    ∧ ∀ G1, checkSubcore E G (some (G.verts.take 1)) = some G1 →
        findCore E G true = coreLoop E (G1.order + 1) G1 ∧
        findHomImage E (findCore E G true) none = none := by
  have hfc : findCore E G true =
      match checkSubcore E G (some (G.verts.take 1)) with
      | none => G
      | some G1 => coreLoop E (G1.order + 1) G1 := by
    unfold findCore
    rw [if_neg hnc]
    rfl
  constructor
  · intro h
    rw [hfc, h]
  · intro G1 h
    have heq : findCore E G true = coreLoop E (G1.order + 1) G1 := by rw [hfc, h]
    exact ⟨heq, by rw [heq]; exact coreLoop_fixpoint hE (G1.order + 1) G1 (Nat.lt_succ_self _)⟩

theorem find_core_vt_spec_witness :
    findCore specExtendHom exPend true = exPend :=
  (find_core_vt_spec specExtendHom exPend specExtendHom_valuesOk (by decide)).1 (by rfl)

/-! ## The homomorphism validator: is_hom -/

section Validator

variable {V : Type} [DecidableEq V]

/-- Set equality of two lists (Python set(a) == set(b)). -/
def listSetEq (l1 l2 : List V) : Bool :=
  (l1.all fun x => decide (x ∈ l2)) && (l2.all fun x => decide (x ∈ l1))

/-- Set inclusion of two lists (Python set(b).issuperset(set(a))). -/
def listSub (l1 l2 : List V) : Bool :=
  l1.all fun x => decide (x ∈ l2)

/-- hom.py is_hom, lines 181-192.  The two failed asserts are modelled as the
none result; otherwise the edge check runs.  The source iterates each
undirected edge once; since the adjacency of both graphs is symmetric,
checking all ordered adjacent pairs is extensionally the same test. -/
def is_hom (G H : Graph V) (hom : List (V × V)) : Option Bool :=
  if listSetEq (hom.map Prod.fst) G.verts then
    if listSub (hom.map Prod.snd) H.verts then
      some (G.verts.all fun u => G.verts.all fun v =>
        !(G.adj u v) || H.adj (applyMap hom u) (applyMap hom v))
    else none
  else none

theorem edge_check_false_iff (G H : Graph V) (hom : List (V × V)) :
    ((G.verts.all fun u => G.verts.all fun v =>
        !(G.adj u v) || H.adj (applyMap hom u) (applyMap hom v)) = false)
    ↔ ∃ u ∈ G.verts, ∃ v ∈ G.verts, G.adj u v = true ∧
        H.adj (applyMap hom u) (applyMap hom v) = false := by
  rw [Bool.eq_false_iff]
  simp only [ne_eq, List.all_eq_true, Bool.or_eq_true, Bool.not_eq_true']
  push_neg
  constructor
  · rintro ⟨u, hu, v, hv, h1, h2⟩
    refine ⟨u, hu, v, hv, ?_, ?_⟩
    · cases ha : G.adj u v with
      | false => exact absurd ha h1
      | true => rfl
    · cases hb : H.adj (applyMap hom u) (applyMap hom v) with
      | false => rfl
      | true => exact absurd hb h2
  · rintro ⟨u, hu, v, hv, ha, hb⟩
    exact ⟨u, hu, v, hv, by simp [ha], by simp [hb]⟩

end Validator

/-! ## Claim C8 -/

/-- C8: is_hom errors (the failed assert) exactly when the map's key set is
not the vertex set of G or some value is outside H; on well-formed input it
returns false exactly when some edge of G maps to a non-edge of H and true
exactly when all edges are preserved, and in particular two adjacent source
vertices sharing an image in the simple (loopless) target force the false
result, not an error. -/
theorem is_hom_spec {V : Type} [DecidableEq V] (G H : Graph V) (hom : List (V × V)) :
    ((listSetEq (hom.map Prod.fst) G.verts = false ∨
        listSub (hom.map Prod.snd) H.verts = false) → is_hom G H hom = none)
    ∧ (listSetEq (hom.map Prod.fst) G.verts = true →
       listSub (hom.map Prod.snd) H.verts = true →
        ((is_hom G H hom = some false ↔
            ∃ u ∈ G.verts, ∃ v ∈ G.verts, G.adj u v = true ∧
              H.adj (applyMap hom u) (applyMap hom v) = false)
         ∧ (is_hom G H hom = some true ↔
            ∀ u ∈ G.verts, ∀ v ∈ G.verts, G.adj u v = true →
              H.adj (applyMap hom u) (applyMap hom v) = true)
         ∧ (∀ u ∈ G.verts, ∀ v ∈ G.verts, G.adj u v = true →
              applyMap hom u = applyMap hom v → is_hom G H hom = some false))) := by
  constructor
  · rintro (h | h) <;> simp [is_hom, h]
  · intro h1 h2
    have hrep : is_hom G H hom = some (G.verts.all fun u => G.verts.all fun v =>
        !(G.adj u v) || H.adj (applyMap hom u) (applyMap hom v)) := by
      simp [is_hom, h1, h2]
    refine ⟨?_, ?_, ?_⟩
    · rw [hrep]
      simp only [Option.some.injEq]
      exact edge_check_false_iff G H hom
    · rw [hrep]
      simp only [Option.some.injEq, List.all_eq_true, Bool.or_eq_true, Bool.not_eq_true']
      constructor
      · intro hall u hu v hv ha
        rcases hall u hu v hv with h | h
        · rw [ha] at h; cases h
        · exact h
      · intro hall u hu v hv
        rcases Bool.eq_false_or_eq_true (G.adj u v) with ha | ha
        · exact Or.inr (hall u hu v hv ha)
        · exact Or.inl ha
    · intro u hu v hv ha hsame
      rw [hrep]
      simp only [Option.some.injEq]
      apply (edge_check_false_iff G H hom).mpr
      exact ⟨u, hu, v, hv, ha, by rw [hsame]; exact H.loopless _⟩

/-- The complete graph on two vertices. -/
def exK2 : Graph Nat := mkGraph [0, 1] [(0, 1)]

theorem is_hom_spec_witness :
    is_hom exK2 exK2 [(0, 0), (1, 0)] = some false ∧
    is_hom exK2 exK2 [(0, 4)] = none :=
  ⟨((is_hom_spec exK2 exK2 [(0, 0), (1, 0)]).2 (by decide) (by decide)).2.2
      0 (by decide) 1 (by decide) (by decide) (by decide),
   (is_hom_spec exK2 exK2 [(0, 4)]).1 (Or.inl (by decide))⟩

/-! ## GF(2) vectors

Vertices of the cube-like graphs are tuples over GF(2); they are embedded as
boolean lists with componentwise xor as addition (which is also subtraction,
since every element is its own inverse). -/

abbrev VB := List Bool

def vadd (a b : VB) : VB := List.zipWith xor a b

def vzero (n : Nat) : VB := List.replicate n false

/-- The element set of the GF(2) span of the generators, via closure under
adding each generator.  Over GF(2) a subspace of dimension d has exactly 2^d
elements, so the source's quantity 2**span.dimension() is the length of this
deduplicated enumeration. -/
def xorSpan (n : Nat) (gens : List VB) : List VB :=
  gens.foldl (fun acc g => (acc ++ acc.map fun a => vadd a g).dedup) [vzero n]

/-- Set inclusion of span element lists. -/
def spanSub (s1 s2 : List VB) : Bool := s1.all fun x => decide (x ∈ s2)

/-- Structural subspace equality: sage compares subspaces as sets of
elements, not by dimension. -/
def spanEq (s1 s2 : List VB) : Bool := spanSub s1 s2 && spanSub s2 s1

theorem spanSub_iff {s1 s2 : List VB} : spanSub s1 s2 = true ↔ ∀ x ∈ s1, x ∈ s2 := by
  simp [spanSub, List.all_eq_true]

theorem spanEq_iff {s1 s2 : List VB} :
    spanEq s1 s2 = true ↔ (∀ x ∈ s1, x ∈ s2) ∧ (∀ x ∈ s2, x ∈ s1) := by
  simp [spanEq, Bool.and_eq_true, spanSub_iff]

theorem spanEq_refl (s : List VB) : spanEq s s = true :=
  spanEq_iff.mpr ⟨fun _ h => h, fun _ h => h⟩

theorem spanEq_symm {a b : List VB} (h : spanEq a b = true) : spanEq b a = true := by
  rw [spanEq_iff] at h ⊢
  exact ⟨h.2, h.1⟩

theorem spanEq_trans {a b c : List VB} (hab : spanEq a b = true)
    (hbc : spanEq b c = true) : spanEq a c = true := by
  rw [spanEq_iff] at hab hbc ⊢
  exact ⟨fun x hx => hbc.1 x (hab.1 x hx), fun x hx => hab.2 x (hbc.2 x hx)⟩

/-! ## hom_is_by_subspace -/

/-- The fiber of the image value im: the vertices of G that h maps to im
(hom.py line 208). -/
def fiberOf (G : Graph VB) (h : List (VB × VB)) (im : VB) : List VB :=
  G.verts.filter fun v => decide (alookup h v = some im)

/-- The fiber translated by its first element (hom.py line 209; subtraction
over GF(2) is xor). -/
def fiber0 (G : Graph VB) (h : List (VB × VB)) (im : VB) : List VB :=
  match fiberOf G h im with
  | [] => []
  | s0 :: _ => (fiberOf G h im).map fun i => vadd i s0

/-- The loop body of hom_is_by_subspace, lines 206-220: walk the image
values, carrying the first fiber's span for the isomorphy comparison. -/
def hibsAux (G : Graph VB) (n : Nat) (h : List (VB × VB)) (req : Bool) :
    List VB → Option (List VB) → Bool
  | [], _ => true
  | im :: rest, sc =>
    let src0 := fiber0 G h im
    let spn := xorSpan n src0
    if src0.length < spn.length then false
    else if req then
      match sc with
      | none => hibsAux G n h req rest (some spn)
      | some s => if spanEq s spn then hibsAux G n h req rest (some s) else false
    else hibsAux G n h req rest sc

/-- hom.py hom_is_by_subspace, lines 195-220. -/
def hom_is_by_subspace (G : Graph VB) (n : Nat) (h : List (VB × VB))
    (require_isomorphic : Bool) : Bool :=
  hibsAux G n h require_isomorphic (h.map Prod.snd) none

theorem hibsAux_cons_eq (G : Graph VB) (n : Nat) (hm : List (VB × VB)) (req : Bool)
    (im : VB) (rest : List VB) (sc : Option (List VB)) :
    hibsAux G n hm req (im :: rest) sc =
      (if (fiber0 G hm im).length < (xorSpan n (fiber0 G hm im)).length then false
       else if req then
         match sc with
         | none => hibsAux G n hm req rest (some (xorSpan n (fiber0 G hm im)))
         | some s =>
             if spanEq s (xorSpan n (fiber0 G hm im)) then hibsAux G n hm req rest (some s)
             else false
       else hibsAux G n hm req rest sc) := rfl

theorem hibsAux_some_true (G : Graph VB) (n : Nat) (hm : List (VB × VB)) (req : Bool) :
    ∀ (l : List VB) (s : List VB),
      hibsAux G n hm req l (some s) = true ↔
        ∀ im ∈ l, ¬ (fiber0 G hm im).length < (xorSpan n (fiber0 G hm im)).length ∧
          (req = true → spanEq s (xorSpan n (fiber0 G hm im)) = true) := by
  intro l
  induction l with
  | nil => intro s; simp [hibsAux]
  | cons im rest ih =>
    intro s
    rw [hibsAux_cons_eq]
    by_cases hshort : (fiber0 G hm im).length < (xorSpan n (fiber0 G hm im)).length
    · rw [if_pos hshort]
      constructor
      · intro h; cases h
      · intro h
        exact absurd hshort (h im (List.mem_cons_self _ _)).1
    · rw [if_neg hshort]
      cases req with
      | false =>
        rw [if_neg (by simp : ¬ (false : Bool) = true)]
        rw [show hibsAux G n hm false rest (some s) = hibsAux G n hm false rest (some s) from rfl]
        rw [ih s]
        constructor
        · intro h x hx
          rcases List.mem_cons.mp hx with rfl | hx'
          · exact ⟨hshort, by intro hc; cases hc⟩
          · exact h x hx'
        · intro h x hx
          exact h x (List.mem_cons_of_mem _ hx)
      | true =>
        rw [if_pos rfl]
        show (if spanEq s (xorSpan n (fiber0 G hm im)) then hibsAux G n hm true rest (some s)
              else false) = true ↔ _
        by_cases heq : spanEq s (xorSpan n (fiber0 G hm im)) = true
        · rw [if_pos heq, ih s]
          constructor
          · intro h x hx
            rcases List.mem_cons.mp hx with rfl | hx'
            · exact ⟨hshort, fun _ => heq⟩
            · exact h x hx'
          · intro h x hx
            exact h x (List.mem_cons_of_mem _ hx)
        · rw [if_neg heq]
          constructor
          · intro h; cases h
          · intro h
            exact absurd ((h im (List.mem_cons_self _ _)).2 rfl) heq

theorem hibsAux_req_false_true (G : Graph VB) (n : Nat) (hm : List (VB × VB)) :
    ∀ (l : List VB) (sc : Option (List VB)),
      hibsAux G n hm false l sc = true ↔
        ∀ im ∈ l, ¬ (fiber0 G hm im).length < (xorSpan n (fiber0 G hm im)).length := by
  intro l
  induction l with
  | nil => intro sc; simp [hibsAux]
  | cons im rest ih =>
    intro sc
    rw [hibsAux_cons_eq]
    by_cases hshort : (fiber0 G hm im).length < (xorSpan n (fiber0 G hm im)).length
    · rw [if_pos hshort]
      constructor
      · intro h; cases h
      · intro h
        exact absurd hshort (h im (List.mem_cons_self _ _))
    · rw [if_neg hshort, if_neg (by simp : ¬ (false : Bool) = true), ih sc]
      constructor
      · intro h x hx
        rcases List.mem_cons.mp hx with rfl | hx'
        · exact hshort
        · exact h x hx'
      · intro h x hx
        exact h x (List.mem_cons_of_mem _ hx)

theorem hibsAux_none_true (G : Graph VB) (n : Nat) (hm : List (VB × VB)) (req : Bool)
    (l : List VB) :
    hibsAux G n hm req l none = true ↔
      (∀ im ∈ l, ¬ (fiber0 G hm im).length < (xorSpan n (fiber0 G hm im)).length)
      ∧ (req = true → ∀ im1 ∈ l, ∀ im2 ∈ l,
          spanEq (xorSpan n (fiber0 G hm im1)) (xorSpan n (fiber0 G hm im2)) = true) := by
  cases req with
  | false =>
    rw [hibsAux_req_false_true]
    constructor
    · intro h
      exact ⟨h, fun hc => nomatch hc⟩
    · intro h
      exact h.1
  | true =>
    cases l with
    | nil => simp [hibsAux]
    | cons im0 rest =>
      rw [hibsAux_cons_eq]
      by_cases hshort : (fiber0 G hm im0).length < (xorSpan n (fiber0 G hm im0)).length
      · rw [if_pos hshort]
        constructor
        · intro h; cases h
        · intro h
          exact absurd hshort (h.1 im0 (List.mem_cons_self _ _))
      · rw [if_neg hshort, if_pos rfl]
        show hibsAux G n hm true rest (some (xorSpan n (fiber0 G hm im0))) = true ↔ _
        rw [hibsAux_some_true]
        constructor
        · intro h
          constructor
          · intro x hx
            rcases List.mem_cons.mp hx with rfl | hx'
            · exact hshort
            · exact (h x hx').1
          · intro _ x1 hx1 x2 hx2
            have anch : ∀ y ∈ im0 :: rest,
                spanEq (xorSpan n (fiber0 G hm im0)) (xorSpan n (fiber0 G hm y)) = true := by
              intro y hy
              rcases List.mem_cons.mp hy with rfl | hy'
              · exact spanEq_refl _
              · exact (h y hy').2 rfl
            exact spanEq_trans (spanEq_symm (anch x1 hx1)) (anch x2 hx2)
        · intro h x hx
          refine ⟨h.1 x (List.mem_cons_of_mem _ hx), ?_⟩
          intro _
          exact h.2 rfl im0 (List.mem_cons_self _ _) x (List.mem_cons_of_mem _ hx)
/-! ## Claim C9 -/

/-- C9: for a total map on G's vertices (keys are exactly the vertex set,
each vertex a vector of the n-dimensional GF(2) space), hom_is_by_subspace
returns False exactly when some fiber, translated by its first element, has
fewer elements than its span (i.e. is not a full coset — over GF(2) the span
has 2^dimension elements), or when require_isomorphic is set and two fibers
span different subspaces, compared as element sets; otherwise it returns True. -/
theorem hom_is_by_subspace_spec (G : Graph VB) (n : Nat) (hm : List (VB × VB))
    (req : Bool)
    (hlen : ∀ v ∈ G.verts, v.length = n)
    (hnd : (hm.map Prod.fst).Nodup)
    (hkeys : listSetEq (hm.map Prod.fst) G.verts = true) :
    hom_is_by_subspace G n hm req = false ↔
      ((∃ im ∈ hm.map Prod.snd,
          (fiber0 G hm im).length < (xorSpan n (fiber0 G hm im)).length)
       ∨ (req = true ∧ ∃ im1 ∈ hm.map Prod.snd, ∃ im2 ∈ hm.map Prod.snd,
            spanEq (xorSpan n (fiber0 G hm im1)) (xorSpan n (fiber0 G hm im2)) = false)) := by
  rw [show hom_is_by_subspace G n hm req = hibsAux G n hm req (hm.map Prod.snd) none from rfl]
  rw [Bool.eq_false_iff, ne_eq, hibsAux_none_true]
  constructor
  · intro h
    by_cases hA : ∀ im ∈ hm.map Prod.snd,
        ¬ (fiber0 G hm im).length < (xorSpan n (fiber0 G hm im)).length
    · right
      by_cases hreq : req = true
      · refine ⟨hreq, ?_⟩
        by_contra hc
        push_neg at hc
        apply h
        refine ⟨hA, fun _ => ?_⟩
        intro x1 hx1 x2 hx2
        cases hb : spanEq (xorSpan n (fiber0 G hm x1)) (xorSpan n (fiber0 G hm x2)) with
        | false => exact absurd hb (hc x1 hx1 x2 hx2)
        | true => rfl
      · exact absurd ⟨hA, fun hr => absurd hr hreq⟩ h
    · left
      push_neg at hA
      obtain ⟨im, him, hlt⟩ := hA
      exact ⟨im, him, hlt⟩
  · rintro (⟨im, him, hlt⟩ | ⟨hreq, x1, hx1, x2, hx2, hne⟩)
    · intro h
      exact (h.1 im him) hlt
    · intro h
      have := h.2 hreq x1 hx1 x2 hx2
      rw [hne] at this
      cases this

/-- The cube-like graph over GF(2)^3 with the generators 100 and 010 (the
graph Gg of the module tests: two disjoint 4-cycles). -/
def exCube3 : Graph VB :=
  mkGraph
    [[false, false, false], [false, false, true], [false, true, false],
     [false, true, true], [true, false, false], [true, false, true],
     [true, true, false], [true, true, true]]
    [([false, false, false], [true, false, false]),
     ([false, false, true], [true, false, true]),
     ([false, true, false], [true, true, false]),
     ([false, true, true], [true, true, true]),
     ([false, false, false], [false, true, false]),
     ([false, false, true], [false, true, true]),
     ([true, false, false], [true, true, false]),
     ([true, false, true], [true, true, true])]

/-- The homomorphism homg of the module tests, mapping GF(2)^3 onto GF(2)^2. -/
def exHomg : List (VB × VB) :=
  [([false, false, false], [false, false]),
   ([true, false, false], [true, false]),
   ([false, true, false], [false, true]),
   ([true, true, false], [true, true]),
   ([false, false, true], [false, false]),
   ([true, false, true], [true, false]),
   ([false, true, true], [true, true]),
   ([true, true, true], [false, true])]

theorem hom_is_by_subspace_spec_witness :
    hom_is_by_subspace exCube3 3 exHomg true = false ∧
    hom_is_by_subspace exCube3 3 exHomg false = true :=
  ⟨(hom_is_by_subspace_spec exCube3 3 exHomg true (by decide) (by decide)
      (by decide)).mpr
    (Or.inr ⟨rfl, [false, false], by decide, [false, true], by decide, by decide⟩),
   by decide⟩


/-! ## squash_cube

hom.py squash_cube (lines 121-178): collapse a cube-like graph along the
displacement c.  The vertex space arithmetic is the xor addition vadd from
the GF(2) section above.  The Python return values False / None / hom-dict
become the three constructors of SquashResult. -/

abbrev PairsMap := List (VB × (VB × VB))

/-- The pair-building loop, lines 135-141: for each vertex v in order, first
fail (return False, here none) if (v, v+c) is an edge, then skip v if either
member already has a pair, else record the pair (v, v+c) under both members. -/
def buildPairs (G : Graph VB) (c : VB) : List VB → PairsMap → Option PairsMap
  | [], acc => some acc
  | v :: vs, acc =>
    let w := vadd v c
    if G.adj v w then none
    else if (alookup acc w).isSome || (alookup acc v).isSome then buildPairs G c vs acc
    else buildPairs G c vs (acc ++ [(v, (v, w)), (w, (v, w))])

def squashPairs (G : Graph VB) (c : VB) : Option PairsMap :=
  buildPairs G c G.verts []

theorem buildPairs_cons_eq (G : Graph VB) (c v : VB) (vs : List VB) (acc : PairsMap) :
    buildPairs G c (v :: vs) acc =
      (if G.adj v (vadd v c) then none
       else if (alookup acc (vadd v c)).isSome || (alookup acc v).isSome then
         buildPairs G c vs acc
       else buildPairs G c vs (acc ++ [(v, (v, vadd v c)), (vadd v c, (v, vadd v c))])) := rfl

/-- pairs[x], with a junk default never hit on vertices of the graph. -/
def pairOfD (pm : PairsMap) (x : VB) : VB × VB := (alookup pm x).getD (x, x)

/-- p[i] for the selections 0 and 1. -/
def pairGet (p : VB × VB) (i : Nat) : VB := if i = 0 then p.1 else p.2

/-- np.index(n). -/
def pairIdx (p : VB × VB) (x : VB) : Nat := if p.1 = x then 0 else 1

/-- The member of the pair p other than x. -/
def pairOther (p : VB × VB) (x : VB) : VB := if p.1 = x then p.2 else p.1

abbrev Chosen := List ((VB × VB) × Nat)

/-- The neighbor loop of extend, lines 160-166, parametrised by the
recursive call one fuel level down. -/
def extendNbrs (ext : (VB × VB) → Nat → Chosen → Option Chosen)
    (G : Graph VB) (pm : PairsMap) (w : VB) : List VB → Chosen → Option Chosen
  | [], ch => some ch
  | n :: rest, ch =>
    if G.adj n w then extendNbrs ext G pm w rest ch
    else
      match ext (pairOfD pm n) (pairIdx (pairOfD pm n) n) ch with
      | none => none
      | some ch2 => extendNbrs ext G pm w rest ch2

/-- The recursive extend closure of squash_cube, lines 145-167, with fuel
making the recursion structural.  The chosen dict is threaded explicitly;
the undecided set of the source is not threaded because it always equals the
set of pairs without a chosen entry (extend removes a pair from it exactly
when recording it), which the loop below recomputes by a lookup.  A nesting
chain of extend calls either stops at an already-chosen pair or records a
new one first, so the recursion depth is bounded by the number of pairs plus
one and larger fuel is never exhausted. -/
def extend (G : Graph VB) (pm : PairsMap) : Nat → (VB × VB) → Nat → Chosen → Option Chosen
  | 0, _, _, _ => none
  | fuel + 1, pair, sel, ch =>
    match alookup ch pair with
    | some s => if s = sel then some ch else none
    | none =>
      extendNbrs (extend G pm fuel) G pm (pairGet pair (1 - sel))
        (G.neighbors (pairGet pair sel)) (ch ++ [(pair, sel)])

theorem extend_succ_eq (G : Graph VB) (pm : PairsMap) (fuel : Nat) (pair : VB × VB)
    (sel : Nat) (ch : Chosen) :
    extend G pm (fuel + 1) pair sel ch =
      (match alookup ch pair with
       | some s => if s = sel then some ch else none
       | none =>
         extendNbrs (extend G pm fuel) G pm (pairGet pair (1 - sel))
           (G.neighbors (pairGet pair sel)) (ch ++ [(pair, sel)])) := rfl

/-- The while loop over the undecided pairs, lines 169-172: a pair that is
already chosen is exactly one that has been removed from the undecided set. -/
def squashLoop (G : Graph VB) (pm : PairsMap) (fuel : Nat) :
    List (VB × VB) → Chosen → Option Chosen
  | [], ch => some ch
  | p :: rest, ch =>
    if (alookup ch p).isSome then squashLoop G pm fuel rest ch
    else
      match extend G pm fuel p 0 ch with
      | none => none
      | some ch2 => squashLoop G pm fuel rest ch2

/-- Building the hom dict from the chosen dict, lines 174-177. -/
def homOfChosen (ch : Chosen) : List (VB × VB) :=
  ch.flatMap fun pi => [(pi.1.1, pairGet pi.1 pi.2), (pi.1.2, pairGet pi.1 pi.2)]

/-- The three results of squash_cube: the Python False (edge contraction),
None (no consistent collapse), and the hom map. -/
inductive SquashResult where
  | edgeContract : SquashResult
  | inconsistent : SquashResult
  | ok : List (VB × VB) → SquashResult
deriving DecidableEq

/-- hom.py squash_cube, lines 121-178. -/
def squashCube (G : Graph VB) (c : VB) : SquashResult :=
  match squashPairs G c with
  | none => .edgeContract
  | some pm =>
    let allPairs := (pm.map Prod.snd).dedup
    match squashLoop G pm (allPairs.length + 1) allPairs [] with
    | none => .inconsistent
    | some ch => .ok (homOfChosen ch)

theorem buildPairs_none_iff (G : Graph VB) (c : VB) :
    ∀ (vs : List VB) (acc : PairsMap),
      buildPairs G c vs acc = none ↔ ∃ v ∈ vs, G.adj v (vadd v c) = true := by
  intro vs
  induction vs with
  | nil => intro acc; simp [buildPairs]
  | cons v rest ih =>
    intro acc
    rw [buildPairs_cons_eq]
    by_cases hadj : G.adj v (vadd v c) = true
    · rw [if_pos hadj]
      constructor
      · intro _
        exact ⟨v, List.mem_cons_self _ _, hadj⟩
      · intro _
        rfl
    · rw [if_neg hadj]
      have hstep : ∀ acc' : PairsMap,
          buildPairs G c rest acc' = none ↔ ∃ x ∈ v :: rest, G.adj x (vadd x c) = true := by
        intro acc'
        rw [ih acc']
        constructor
        · rintro ⟨x, hx, hax⟩
          exact ⟨x, List.mem_cons_of_mem _ hx, hax⟩
        · rintro ⟨x, hx, hax⟩
          rcases List.mem_cons.mp hx with rfl | hx'
          · exact absurd hax hadj
          · exact ⟨x, hx', hax⟩
      by_cases hskip : ((alookup acc (vadd v c)).isSome || (alookup acc v).isSome) = true
      · rw [if_pos hskip]
        exact hstep acc
      · rw [if_neg hskip]
        exact hstep _

/-! ## Claim C2 -/

/-- C2: the two negative outcomes of squash_cube are distinguished by
distinct constructors (the Python False and None): the edge-contraction
sentinel is returned exactly when some pair (v, v+c) is an edge of G, the
no-consistent-collapse sentinel only when no such pair is an edge (i.e. only
when the propagation itself fails), and neither is returned on success. -/
theorem squash_cube_outcomes (G : Graph VB) (c : VB) :
    (squashCube G c = .edgeContract ↔ ∃ v ∈ G.verts, G.adj v (vadd v c) = true)
    ∧ (squashCube G c = .inconsistent → ∀ v ∈ G.verts, G.adj v (vadd v c) = false)
    ∧ (∀ h, squashCube G c = .ok h → ∀ v ∈ G.verts, G.adj v (vadd v c) = false) := by
  have hiff := buildPairs_none_iff G c G.verts []
  have hnoedge : buildPairs G c G.verts [] ≠ none →
      ∀ v ∈ G.verts, G.adj v (vadd v c) = false := by
    intro hne v hv
    cases ha : G.adj v (vadd v c) with
    | false => rfl
    | true => exact absurd (hiff.mpr ⟨v, hv, ha⟩) hne
  cases hbp : squashPairs G c with
  | none =>
    have he : squashCube G c = .edgeContract := by
      unfold squashCube
      rw [hbp]
    refine ⟨⟨fun _ => hiff.mp hbp, fun _ => he⟩, ?_, ?_⟩
    · intro h
      rw [he] at h
      cases h
    · intro hm h
      rw [he] at h
      cases h
  | some pm =>
    have hrepr : squashCube G c =
        (match squashLoop G pm ((pm.map Prod.snd).dedup.length + 1)
            (pm.map Prod.snd).dedup [] with
         | none => SquashResult.inconsistent
         | some ch => SquashResult.ok (homOfChosen ch)) := by
      unfold squashCube
      rw [hbp]
    have hne : buildPairs G c G.verts [] ≠ none := by
      intro hcontr
      rw [show squashPairs G c = buildPairs G c G.verts [] from rfl, hcontr] at hbp
      cases hbp
    have hnoe := hnoedge hne
    cases hlp : squashLoop G pm ((pm.map Prod.snd).dedup.length + 1)
        (pm.map Prod.snd).dedup [] with
    | none =>
      rw [hlp] at hrepr
      refine ⟨⟨?_, ?_⟩, fun _ => hnoe, ?_⟩
      · intro h
        rw [hrepr] at h
        cases h
      · intro hex
        exact absurd (hiff.mpr hex) hne
      · intro hm h
        rw [hrepr] at h
        cases h
    | some ch =>
      rw [hlp] at hrepr
      refine ⟨⟨?_, ?_⟩, ?_, fun hm _ => hnoe⟩
      · intro h
        rw [hrepr] at h
        cases h
      · intro hex
        exact absurd (hiff.mpr hex) hne
      · intro h
        rw [hrepr] at h
        cases h

/-- A single-edge cube-like graph over GF(2)^1 used for the C2 witness. -/
def exVK2 : Graph VB := mkGraph [[false], [true]] [([false], [true])]

theorem squash_cube_outcomes_witness :
    squashCube exVK2 [true] = .edgeContract :=
  (squash_cube_outcomes exVK2 [true]).1.mpr ⟨[false], by decide, by decide⟩

/-! ## Syntactic lemmas about the extend recursion -/

theorem alookup_single_eq {α β : Type} [DecidableEq α] {p q : α} {i j : β}
    (h : alookup [(p, i)] q = some j) : q = p ∧ j = i := by
  by_cases hpq : p = q
  · subst hpq
    simp [alookup] at h
    exact ⟨rfl, h.symm⟩
  · simp [alookup, hpq] at h

theorem alookup_append_single {α β : Type} [DecidableEq α] {ch : List (α × β)} {p : α}
    {i : β} (h : alookup ch p = none) : alookup (ch ++ [(p, i)]) p = some i := by
  rw [alookup_append, h]
  simp [alookup, Option.orElse]

/-- Monotonicity: a successful extend (and its neighbor loop) only appends to
the chosen dict and never shadows, so earlier entries keep their value. -/
theorem extend_mono (G : Graph VB) (pm : PairsMap) :
    ∀ fuel : Nat,
      (∀ (pair : VB × VB) (sel : Nat) (ch ch' : Chosen),
        extend G pm fuel pair sel ch = some ch' →
        ∀ q j, alookup ch q = some j → alookup ch' q = some j)
      ∧ (∀ (w : VB) (ns : List VB) (ch ch' : Chosen),
        extendNbrs (extend G pm fuel) G pm w ns ch = some ch' →
        ∀ q j, alookup ch q = some j → alookup ch' q = some j) := by
  intro fuel
  induction fuel with
  | zero =>
    constructor
    · intro pair sel ch ch' h
      cases h
    · intro w ns
      induction ns with
      | nil =>
        intro ch ch' h q j hq
        cases h
        exact hq
      | cons n rest ih =>
        intro ch ch' h q j hq
        rw [extendNbrs] at h
        by_cases hadj : G.adj n w = true
        · rw [if_pos hadj] at h
          exact ih ch ch' h q j hq
        · rw [if_neg hadj] at h
          cases hext : extend G pm 0 (pairOfD pm n) (pairIdx (pairOfD pm n) n) ch with
          | none => rw [hext] at h; cases h
          | some ch2 => cases hext
  | succ f ih =>
    have hext : ∀ (pair : VB × VB) (sel : Nat) (ch ch' : Chosen),
        extend G pm (f + 1) pair sel ch = some ch' →
        ∀ q j, alookup ch q = some j → alookup ch' q = some j := by
      intro pair sel ch ch' h q j hq
      rw [extend_succ_eq] at h
      cases hl : alookup ch pair with
      | some s =>
        rw [hl] at h
        replace h : (if s = sel then some ch else none) = some ch' := h
        by_cases hs : s = sel
        · rw [if_pos hs] at h
          injection h with h'
          subst h'
          exact hq
        · rw [if_neg hs] at h
          cases h
      | none =>
        rw [hl] at h
        replace h : extendNbrs (extend G pm f) G pm (pairGet pair (1 - sel))
            (G.neighbors (pairGet pair sel)) (ch ++ [(pair, sel)]) = some ch' := h
        exact ih.2 _ _ _ _ h q j (alookup_append_of_some _ hq)
    refine ⟨hext, ?_⟩
    intro w ns
    induction ns with
    | nil =>
      intro ch ch' h q j hq
      cases h
      exact hq
    | cons n rest ihn =>
      intro ch ch' h q j hq
      rw [extendNbrs] at h
      by_cases hadj : G.adj n w = true
      · rw [if_pos hadj] at h
        exact ihn ch ch' h q j hq
      · rw [if_neg hadj] at h
        cases hnest : extend G pm (f + 1) (pairOfD pm n) (pairIdx (pairOfD pm n) n) ch with
        | none => rw [hnest] at h; cases h
        | some ch2 =>
          rw [hnest] at h
          exact ihn ch2 ch' h q j (hext _ _ _ _ hnest q j hq)

/-- A successful extend leaves the requested pair chosen with the requested
selection. -/
theorem extend_records (G : Graph VB) (pm : PairsMap) (fuel : Nat)
    (pair : VB × VB) (sel : Nat) (ch ch' : Chosen)
    (h : extend G pm fuel pair sel ch = some ch') :
    alookup ch' pair = some sel := by
  cases fuel with
  | zero => cases h
  | succ f =>
    rw [extend_succ_eq] at h
    cases hl : alookup ch pair with
    | some s =>
      rw [hl] at h
      replace h : (if s = sel then some ch else none) = some ch' := h
      by_cases hs : s = sel
      · rw [if_pos hs] at h
        injection h with h'
        subst h'
        rw [hl, hs]
      · rw [if_neg hs] at h
        cases h
    | none =>
      rw [hl] at h
      replace h : extendNbrs (extend G pm f) G pm (pairGet pair (1 - sel))
          (G.neighbors (pairGet pair sel)) (ch ++ [(pair, sel)]) = some ch' := h
      exact (extend_mono G pm f).2 _ _ _ _ h pair sel (alookup_append_single hl)

/-- Every neighbor the loop does not skip ends up with its pair chosen, with
the neighbor itself as survivor. -/
theorem extendNbrs_forced (G : Graph VB) (pm : PairsMap) (f : Nat) (w : VB) :
    ∀ (ns : List VB) (ch ch' : Chosen),
      extendNbrs (extend G pm f) G pm w ns ch = some ch' →
      ∀ n ∈ ns, G.adj n w = false →
        alookup ch' (pairOfD pm n) = some (pairIdx (pairOfD pm n) n) := by
  intro ns
  induction ns with
  | nil =>
    intro ch ch' h n hn
    cases hn
  | cons m rest ih =>
    intro ch ch' h n hn hguard
    rw [extendNbrs] at h
    rcases List.mem_cons.mp hn with rfl | hn'
    · rw [if_neg (by rw [hguard]; intro hc; cases hc)] at h
      cases hnest : extend G pm f (pairOfD pm n) (pairIdx (pairOfD pm n) n) ch with
      | none => rw [hnest] at h; cases h
      | some ch2 =>
        rw [hnest] at h
        have hrec := extend_records G pm f _ _ _ _ hnest
        exact (extend_mono G pm f).2 _ _ _ _ h _ _ hrec
    · by_cases hadj : G.adj m w = true
      · rw [if_pos hadj] at h
        exact ih ch ch' h n hn' hguard
      · rw [if_neg hadj] at h
        cases hnest : extend G pm f (pairOfD pm m) (pairIdx (pairOfD pm m) m) ch with
        | none => rw [hnest] at h; cases h
        | some ch2 =>
          rw [hnest] at h
          exact ih ch2 ch' h n hn' hguard

/-! ## Claim C1

The claim states the propagation guard as adjacency of the NEIGHBOR'S
PARTNER to the non-surviving element w.  The code (line 163) tests adjacency
of the neighbor n itself to w: it skips n exactly when G.has_edge(n, w). -/

/-- The pairs dict squash_cube builds on exCube3 with displacement 001. -/
def pmEx : PairsMap :=
  [([false, false, false], ([false, false, false], [false, false, true])),
   ([false, false, true], ([false, false, false], [false, false, true])),
   ([false, true, false], ([false, true, false], [false, true, true])),
   ([false, true, true], ([false, true, false], [false, true, true])),
   ([true, false, false], ([true, false, false], [true, false, true])),
   ([true, false, true], ([true, false, false], [true, false, true])),
   ([true, true, false], ([true, true, false], [true, true, true])),
   ([true, true, true], ([true, true, false], [true, true, true]))]

/-- The chosen dict produced by extend on the first pair of that run. -/
def chEx : Chosen :=
  [(([false, false, false], [false, false, true]), 0),
   (([false, true, false], [false, true, true]), 0),
   (([true, true, false], [true, true, true]), 0),
   (([true, false, false], [true, false, true]), 0)]

/-- C1 counterexample: in the real run of squash_cube on the cube-like graph
exCube3 (Cayley over GF(2)^3 with generators 100 and 010) and displacement
001, resolving the pair (000, 001) with survivor 000 records a constraint
for the pair of the neighbor n = 010 even though n's partner 011 IS adjacent
to the non-survivor 001 — refuting the claim that no new constraint is
recorded for n's pair in that case. -/
theorem squash_extend_guard_counterexample :
    squashPairs exCube3 [false, false, true] = some pmEx ∧
    ¬ (∀ (G : Graph VB) (pm : PairsMap) (fuel : Nat) (pair : VB × VB) (sel : Nat)
        (ch ch' : Chosen),
        alookup ch pair = none →
        extend G pm fuel pair sel ch = some ch' →
        ∀ n ∈ G.neighbors (pairGet pair sel),
          G.adj (pairOther (pairOfD pm n) n) (pairGet pair (1 - sel)) = true →
          alookup ch' (pairOfD pm n) = alookup ch (pairOfD pm n)) := by
  constructor
  · decide
  · intro hP
    have h := hP exCube3 pmEx 5 ([false, false, false], [false, false, true]) 0 [] chEx
        rfl (by decide) [false, true, false] (by decide) (by decide)
    exact absurd h (by decide)

/-- C1 amended: when extend resolves a fresh pair with survivor v = pair[sel]
and non-survivor w = pair[1-sel] and succeeds, then every neighbor n of v
that is NOT ITSELF adjacent to w has the pair containing n chosen with n as
its survivor in the resulting dict; a neighbor n that is adjacent to w is
skipped — the loop makes no recursive constraint call for it. -/
theorem squash_extend_propagation (G : Graph VB) (pm : PairsMap) (fuel : Nat)
    (pair : VB × VB) (sel : Nat) (ch ch' : Chosen)
    (hfresh : alookup ch pair = none)
    (hok : extend G pm fuel pair sel ch = some ch') :
    (∀ n ∈ G.neighbors (pairGet pair sel),
        G.adj n (pairGet pair (1 - sel)) = false →
        alookup ch' (pairOfD pm n) = some (pairIdx (pairOfD pm n) n))
    ∧ (∀ (f : Nat) (w n : VB) (ns : List VB) (ch₂ : Chosen),
        G.adj n w = true →
        extendNbrs (extend G pm f) G pm w (n :: ns) ch₂ =
          extendNbrs (extend G pm f) G pm w ns ch₂) := by
  constructor
  · intro n hn hguard
    cases fuel with
    | zero => cases hok
    | succ f =>
      rw [extend_succ_eq, hfresh] at hok
      replace hok : extendNbrs (extend G pm f) G pm (pairGet pair (1 - sel))
          (G.neighbors (pairGet pair sel)) (ch ++ [(pair, sel)]) = some ch' := hok
      exact extendNbrs_forced G pm f _ _ _ _ hok n hn hguard
  · intro f w n ns ch₂ hadj
    rw [extendNbrs, if_pos hadj]

theorem squash_extend_propagation_witness :
    alookup chEx (pairOfD pmEx [true, false, false]) =
      some (pairIdx (pairOfD pmEx [true, false, false]) [true, false, false]) :=
  (squash_extend_propagation exCube3 pmEx 5
      ([false, false, false], [false, false, true]) 0 [] chEx rfl (by decide)).1
    [true, false, false] (by decide) (by decide)

/-! ## Claim C3 — completeness of squash_cube

The spec flags as an open question that returning failure when extending the
first undecided pair with choice 0 fails is complete — that no consistent
global selection exists at all in that case.  The development below settles
it: on any graph that is translation-symmetric under the displacement c
(every Cayley graph over GF(2)^n is), squash_cube returns a map whenever
some consistent global selection exists. -/

theorem vadd_vadd_cancel : ∀ (a c : VB), a.length = c.length → vadd (vadd a c) c = a := by
  intro a
  induction a with
  | nil =>
    intro c h
    cases c with
    | nil => rfl
    | cons y ys => cases h
  | cons x xs ih =>
    intro c h
    cases c with
    | nil => cases h
    | cons y ys =>
      show (xor (xor x y) y) :: vadd (vadd xs ys) ys = x :: xs
      rw [ih ys (by simpa using h)]
      have hx : xor (xor x y) y = x := by cases x <;> cases y <;> rfl
      rw [hx]

theorem vadd_length : ∀ (a c : VB), a.length = c.length → (vadd a c).length = a.length := by
  intro a
  induction a with
  | nil => intro c h; rfl
  | cons x xs ih =>
    intro c h
    cases c with
    | nil => cases h
    | cons y ys =>
      show (vadd xs ys).length + 1 = xs.length + 1
      rw [ih ys (by simpa using h)]

theorem vadd_eq_self_iff : ∀ (a c : VB), a.length = c.length →
    (vadd a c = a ↔ c = List.replicate c.length false) := by
  intro a
  induction a with
  | nil =>
    intro c h
    cases c with
    | nil => simp [vadd]
    | cons y ys => cases h
  | cons x xs ih =>
    intro c h
    cases c with
    | nil => cases h
    | cons y ys =>
      show (xor x y) :: vadd xs ys = x :: xs ↔ _
      have hy : (xor x y = x) ↔ y = false := by cases x <;> cases y <;> simp
      simp only [List.cons.injEq, List.length_cons, List.replicate_succ]
      rw [hy, ih ys (by simpa using h)]

theorem vadd_ne_self {a c : VB} (h : a.length = c.length)
    (hc : c ≠ List.replicate c.length false) : vadd a c ≠ a := by
  intro he
  exact hc ((vadd_eq_self_iff a c h).mp he)

/-- The structural facts claim C3 needs about the graph, the displacement
and the pairs dict: the graph is cube-like for c (vertex lengths match c,
the vertex set is closed under adding c, and adjacency is invariant under
translating both ends by c — every Cayley graph over GF(2)^n has all
three), c is nonzero, and pm is a well-formed pairs dict. -/
structure SquashCtx (G : Graph VB) (c : VB) (pm : PairsMap) : Prop where
  hlen : ∀ v ∈ G.verts, v.length = c.length
  hcnz : c ≠ List.replicate c.length false
  hclosed : ∀ v ∈ G.verts, vadd v c ∈ G.verts
  htrans : ∀ u ∈ G.verts, ∀ v ∈ G.verts, G.adj (vadd u c) (vadd v c) = G.adj u v
  hpm : ∀ x p, alookup pm x = some p →
      p.2 = vadd p.1 c ∧ (x = p.1 ∨ x = p.2) ∧ p.1 ∈ G.verts ∧ p.2 ∈ G.verts ∧
      alookup pm p.1 = some p ∧ alookup pm p.2 = some p
  htotal : ∀ v ∈ G.verts, (alookup pm v).isSome = true
  hnodup : (pm.map Prod.fst).Nodup

theorem alookup_none_iff_not_mem {α β : Type} [DecidableEq α] {l : List (α × β)} {a : α} :
    alookup l a = none ↔ a ∉ l.map Prod.fst := by
  induction l with
  | nil => simp [alookup]
  | cons kb t ih =>
    obtain ⟨k, b⟩ := kb
    by_cases hk : k = a
    · subst hk
      simp [alookup]
    · rw [show alookup ((k, b) :: t) a = alookup t a from by simp [alookup, hk], ih]
      simp only [List.map_cons, List.mem_cons, not_or]
      constructor
      · intro h
        exact ⟨fun he => hk he.symm, h⟩
      · intro h
        exact h.2

theorem alookup_isSome_of_mem_keys {α β : Type} [DecidableEq α] {l : List (α × β)}
    {a : α} (h : a ∈ l.map Prod.fst) : (alookup l a).isSome = true := by
  cases hl : alookup l a with
  | none => exact absurd h (alookup_none_iff_not_mem.mp hl)
  | some p => rfl


theorem alookup_cons_eq {α β : Type} [DecidableEq α] (k : α) (b : β)
    (t : List (α × β)) (a : α) :
    alookup ((k, b) :: t) a = if k = a then some b else alookup t a := rfl

/-- The pair-building loop establishes the pairs-dict part of the context:
every entry records a pair (a, a+c) under both of its members, the keys are
distinct, and every processed vertex has an entry. -/
theorem buildPairs_inv (G : Graph VB) (c : VB)
    (hlen : ∀ v ∈ G.verts, v.length = c.length)
    (hcnz : c ≠ List.replicate c.length false)
    (hclosed : ∀ v ∈ G.verts, vadd v c ∈ G.verts) :
    ∀ (vs : List VB) (acc pm : PairsMap),
      (∀ v ∈ vs, v ∈ G.verts) →
      (∀ x p, alookup acc x = some p →
          p.2 = vadd p.1 c ∧ (x = p.1 ∨ x = p.2) ∧ p.1 ∈ G.verts ∧ p.2 ∈ G.verts ∧
          alookup acc p.1 = some p ∧ alookup acc p.2 = some p) →
      (acc.map Prod.fst).Nodup →
      buildPairs G c vs acc = some pm →
      (∀ x p, alookup pm x = some p →
          p.2 = vadd p.1 c ∧ (x = p.1 ∨ x = p.2) ∧ p.1 ∈ G.verts ∧ p.2 ∈ G.verts ∧
          alookup pm p.1 = some p ∧ alookup pm p.2 = some p)
      ∧ (pm.map Prod.fst).Nodup
      ∧ (∀ v ∈ vs, (alookup pm v).isSome = true)
      ∧ (∀ x p, alookup acc x = some p → alookup pm x = some p) := by
  intro vs
  induction vs with
  | nil =>
    intro acc pm hvs hinv hnd hbp
    injection hbp with h
    subst h
    refine ⟨hinv, hnd, ?_, fun x p h => h⟩
    intro x hx
    cases hx
  | cons v rest ih =>
    intro acc pm hvs hinv hnd hbp
    have hv : v ∈ G.verts := hvs v (List.mem_cons_self _ _)
    have hvlen : v.length = c.length := hlen v hv
    rw [buildPairs_cons_eq] at hbp
    by_cases hadj : G.adj v (vadd v c) = true
    · rw [if_pos hadj] at hbp
      cases hbp
    · rw [if_neg hadj] at hbp
      by_cases hskip : ((alookup acc (vadd v c)).isSome || (alookup acc v).isSome) = true
      · rw [if_pos hskip] at hbp
        obtain ⟨hfin, hnd', hrest, hpres⟩ :=
          ih acc pm (fun x hx => hvs x (List.mem_cons_of_mem _ hx)) hinv hnd hbp
        refine ⟨hfin, hnd', ?_, hpres⟩
        intro x hx
        rcases List.mem_cons.mp hx with rfl | hx'
        · have hsome : ∃ p, alookup acc x = some p := by
            rcases Bool.or_eq_true_iff.mp hskip with hw | hv2
            · obtain ⟨p, hp⟩ := Option.isSome_iff_exists.mp hw
              obtain ⟨hp2, hmem, hp1v, hp2v, hl1, hl2⟩ := hinv _ _ hp
              rcases hmem with h1 | h2
              · have hx2 : p.2 = x := by
                  rw [hp2, ← h1, vadd_vadd_cancel x c hvlen]
                exact ⟨p, by rw [← hx2]; exact hl2⟩
              · have hx1 : p.1 = x := by
                  have hc1 : vadd (vadd x c) c = vadd (vadd p.1 c) c := by
                    rw [h2, hp2]
                  rw [vadd_vadd_cancel x c hvlen,
                      vadd_vadd_cancel p.1 c (hlen p.1 hp1v)] at hc1
                  exact hc1.symm
                exact ⟨p, by rw [← hx1]; exact hl1⟩
            · obtain ⟨p, hp⟩ := Option.isSome_iff_exists.mp hv2
              exact ⟨p, hp⟩
          obtain ⟨p, hp⟩ := hsome
          rw [hpres x p hp]
          rfl
        · exact hrest x hx'
      · rw [if_neg hskip] at hbp
        have hwn : alookup acc (vadd v c) = none := by
          cases hl : alookup acc (vadd v c) with
          | none => rfl
          | some p =>
            exfalso
            apply hskip
            rw [hl]
            rfl
        have hvn : alookup acc v = none := by
          cases hl : alookup acc v with
          | none => rfl
          | some p =>
            exfalso
            apply hskip
            rw [hl, hwn]
            rfl
        have hwne : vadd v c ≠ v := vadd_ne_self hvlen hcnz
        have hlookL_v : alookup [(v, (v, vadd v c)), (vadd v c, (v, vadd v c))] v =
            some (v, vadd v c) := by
          rw [alookup_cons_eq, if_pos rfl]
        have hlookL_w : alookup [(v, (v, vadd v c)), (vadd v c, (v, vadd v c))]
            (vadd v c) = some (v, vadd v c) := by
          rw [alookup_cons_eq, if_neg (fun h => hwne h.symm), alookup_cons_eq, if_pos rfl]
        have haccv : alookup (acc ++ [(v, (v, vadd v c)), (vadd v c, (v, vadd v c))]) v =
            some (v, vadd v c) := by
          rw [alookup_append, hvn]
          exact hlookL_v
        have haccw : alookup (acc ++ [(v, (v, vadd v c)), (vadd v c, (v, vadd v c))])
            (vadd v c) = some (v, vadd v c) := by
          rw [alookup_append, hwn]
          exact hlookL_w
        have hinv' : ∀ x p,
            alookup (acc ++ [(v, (v, vadd v c)), (vadd v c, (v, vadd v c))]) x = some p →
            p.2 = vadd p.1 c ∧ (x = p.1 ∨ x = p.2) ∧ p.1 ∈ G.verts ∧ p.2 ∈ G.verts ∧
            alookup (acc ++ [(v, (v, vadd v c)), (vadd v c, (v, vadd v c))]) p.1 = some p ∧
            alookup (acc ++ [(v, (v, vadd v c)), (vadd v c, (v, vadd v c))]) p.2 = some p := by
          intro x p hx
          rw [alookup_append] at hx
          cases hax : alookup acc x with
          | some p0 =>
            rw [hax] at hx
            replace hx : some p0 = some p := hx
            injection hx with he
            subst he
            obtain ⟨a1, a2, a3, a4, a5, a6⟩ := hinv x p0 hax
            exact ⟨a1, a2, a3, a4, alookup_append_of_some _ a5, alookup_append_of_some _ a6⟩
          | none =>
            rw [hax] at hx
            replace hx : alookup [(v, (v, vadd v c)), (vadd v c, (v, vadd v c))] x =
                some p := hx
            by_cases hvx : v = x
            · have hx' : some (v, vadd v c) = some p := by
                rw [← hlookL_v]
                rw [show alookup [(v, (v, vadd v c)), (vadd v c, (v, vadd v c))] v =
                    alookup [(v, (v, vadd v c)), (vadd v c, (v, vadd v c))] x from by
                  rw [hvx]]
                exact hx
              injection hx' with he
              subst he
              exact ⟨rfl, Or.inl hvx.symm, hv, hclosed v hv, haccv, haccw⟩
            · by_cases hwx : vadd v c = x
              · have hx' : some (v, vadd v c) = some p := by
                  rw [← hlookL_w]
                  rw [show alookup [(v, (v, vadd v c)), (vadd v c, (v, vadd v c))]
                      (vadd v c) =
                      alookup [(v, (v, vadd v c)), (vadd v c, (v, vadd v c))] x from by
                    rw [hwx]]
                  exact hx
                injection hx' with he
                subst he
                exact ⟨rfl, Or.inr hwx.symm, hv, hclosed v hv, haccv, haccw⟩
              · exfalso
                rw [alookup_cons_eq, if_neg hvx, alookup_cons_eq, if_neg hwx] at hx
                cases hx
        have hnd'' : ((acc ++ [(v, (v, vadd v c)), (vadd v c, (v, vadd v c))]).map
            Prod.fst).Nodup := by
          rw [List.map_append]
          rw [List.nodup_append]
          refine ⟨hnd, ?_, ?_⟩
          · show ([v, vadd v c] : List VB).Nodup
            refine List.nodup_cons.mpr ⟨?_, List.nodup_singleton _⟩
            simp only [List.mem_cons, List.not_mem_nil, or_false]
            exact fun h => hwne h.symm
          · intro y hy hy2
            have hy2' : y ∈ ([v, vadd v c] : List VB) := hy2
            rcases List.mem_cons.mp hy2' with rfl | hy3
            · rw [alookup_none_iff_not_mem] at hvn
              exact hvn hy
            · rcases List.mem_cons.mp hy3 with rfl | hy4
              · rw [alookup_none_iff_not_mem] at hwn
                exact hwn hy
              · cases hy4
        obtain ⟨hfin, hnd3, hrest, hpres⟩ :=
          ih _ pm (fun x hx => hvs x (List.mem_cons_of_mem _ hx)) hinv' hnd'' hbp
        refine ⟨hfin, hnd3, ?_, ?_⟩
        · intro x hx
          rcases List.mem_cons.mp hx with rfl | hx'
          · rw [hpres x _ haccv]
            rfl
          · exact hrest x hx'
        · intro x p hp
          exact hpres x p (alookup_append_of_some _ hp)

/-- The survivor of a vertex under a selection: the selected member of its
pair. -/
def survOf (pm : PairsMap) (S : VB × VB → Nat) (x : VB) : VB :=
  pairGet (pairOfD pm x) (S (pairOfD pm x))

/-- The notion of a consistent global selection from claim C3: every pair
chooses a member as survivor (0 or 1) and mapping every vertex to the
survivor of its pair sends edges of G to edges of G (the induced quotient
map is a homomorphism). -/
def ConsistentSel (G : Graph VB) (pm : PairsMap) (S : VB × VB → Nat) : Prop :=
  (∀ p, S p ≤ 1) ∧
  ∀ u ∈ G.verts, ∀ v ∈ G.verts, G.adj u v = true →
    G.adj (survOf pm S u) (survOf pm S v) = true

/-- The chosen dict agrees with the selection S. -/
def Compat (S : VB × VB → Nat) (ch : Chosen) : Prop :=
  ∀ p i, alookup ch p = some i → S p = i

/-- p is a pair of the pairs dict. -/
def InPm (pm : PairsMap) (p : VB × VB) : Prop := ∃ x, alookup pm x = some p

/-- The chosen dict is closed under propagation: every forced neighbor of a
recorded survivor already has a chosen pair. -/
def ChClosed (G : Graph VB) (pm : PairsMap) (ch : Chosen) : Prop :=
  ∀ p i, alookup ch p = some i →
    ∀ n ∈ G.neighbors (pairGet p i), G.adj n (pairGet p (1 - i)) = false →
      (alookup ch (pairOfD pm n)).isSome = true

/-- All keys of the chosen dict are pairs of the pairs dict. -/
def ChKeys (pm : PairsMap) (ch : Chosen) : Prop :=
  ∀ p i, alookup ch p = some i → InPm pm p

/-- The number of pairs not yet chosen (the size of the undecided set). -/
def undecidedCount (pm : PairsMap) (ch : Chosen) : Nat :=
  ((pm.map Prod.snd).dedup.filter fun p => (alookup ch p).isNone).length

theorem ctx_pairOfD_eq {pm : PairsMap} {x : VB} {p : VB × VB}
    (h : alookup pm x = some p) : pairOfD pm x = p := by
  rw [pairOfD, h]
  rfl

theorem ctx_lookup_mem {G : Graph VB} {c : VB} {pm : PairsMap} (ctx : SquashCtx G c pm)
    {x : VB} (hx : x ∈ G.verts) : ∃ p, alookup pm x = some p :=
  Option.isSome_iff_exists.mp (ctx.htotal x hx)

theorem ctx_members {G : Graph VB} {c : VB} {pm : PairsMap} (ctx : SquashCtx G c pm)
    {p : VB × VB} (hp : InPm pm p) :
    p.2 = vadd p.1 c ∧ p.1 ∈ G.verts ∧ p.2 ∈ G.verts ∧
    alookup pm p.1 = some p ∧ alookup pm p.2 = some p := by
  obtain ⟨x, hx⟩ := hp
  obtain ⟨a, _, b, d, e, f⟩ := ctx.hpm x p hx
  exact ⟨a, b, d, e, f⟩

theorem ctx_partner_lookup {G : Graph VB} {c : VB} {pm : PairsMap}
    (ctx : SquashCtx G c pm) {x : VB} {p : VB × VB} (h : alookup pm x = some p) :
    alookup pm (vadd x c) = some p := by
  obtain ⟨h2, hmem, h1v, h2v, hl1, hl2⟩ := ctx.hpm x p h
  rcases hmem with h1 | h1
  · rw [h1, ← h2]
    exact hl2
  · have hx : vadd x c = p.1 := by
      rw [h1, h2, vadd_vadd_cancel p.1 c (ctx.hlen p.1 h1v)]
    rw [hx]
    exact hl1

theorem pairGet_cases (p : VB × VB) (i : Nat) : pairGet p i = p.1 ∨ pairGet p i = p.2 := by
  cases i with
  | zero => exact Or.inl rfl
  | succ n => exact Or.inr rfl

theorem ctx_pairGet_mem {G : Graph VB} {c : VB} {pm : PairsMap} (ctx : SquashCtx G c pm)
    {p : VB × VB} (hp : InPm pm p) (i : Nat) : pairGet p i ∈ G.verts := by
  obtain ⟨_, h1v, h2v, _, _⟩ := ctx_members ctx hp
  rcases pairGet_cases p i with h | h <;> rw [h] <;> assumption

theorem loser_eq {G : Graph VB} {c : VB} {pm : PairsMap} (ctx : SquashCtx G c pm)
    {p : VB × VB} (hp : InPm pm p) {sel : Nat} (hsel : sel ≤ 1) :
    pairGet p (1 - sel) = vadd (pairGet p sel) c := by
  obtain ⟨h2, h1v, _, _, _⟩ := ctx_members ctx hp
  cases sel with
  | zero => exact h2
  | succ n =>
    rw [show 1 - (n + 1) = 0 from by omega]
    show p.1 = vadd p.2 c
    rw [h2, vadd_vadd_cancel p.1 c (ctx.hlen p.1 h1v)]

theorem ctx_lookup_of_pairGet {G : Graph VB} {c : VB} {pm : PairsMap}
    (ctx : SquashCtx G c pm) {p : VB × VB} (hp : InPm pm p) (i : Nat) :
    alookup pm (pairGet p i) = some p := by
  obtain ⟨_, _, _, hl1, hl2⟩ := ctx_members ctx hp
  rcases pairGet_cases p i with h | h <;> rw [h] <;> assumption

/-- Soundness of the propagation guard: any consistent selection that picks
pair p's survivor as pair[sel] must, for every neighbor n of that survivor
that is not adjacent to the loser, select n as the survivor of n's own
pair. -/
theorem forced_sel_agrees {G : Graph VB} {c : VB} {pm : PairsMap}
    (ctx : SquashCtx G c pm) {S : VB × VB → Nat} (hS : ConsistentSel G pm S)
    {p : VB × VB} (hp : InPm pm p) {sel : Nat} (hsel : S p = sel)
    {n : VB} (hn : n ∈ G.neighbors (pairGet p sel))
    (hguard : G.adj n (pairGet p (1 - sel)) = false) :
    S (pairOfD pm n) = pairIdx (pairOfD pm n) n ∧ InPm pm (pairOfD pm n) := by
  have hsel1 : sel ≤ 1 := hsel ▸ hS.1 p
  have hnmem := List.mem_filter.mp hn
  have hnv : n ∈ G.verts := hnmem.1
  have hadjvn : G.adj (pairGet p sel) n = true := hnmem.2
  obtain ⟨np, hnp⟩ := ctx_lookup_mem ctx hnv
  have hnpd : pairOfD pm n = np := ctx_pairOfD_eq hnp
  have hInp : InPm pm np := ⟨n, hnp⟩
  have hpart : alookup pm (vadd n c) = some np := ctx_partner_lookup ctx hnp
  have hvmem : pairGet p sel ∈ G.verts := ctx_pairGet_mem ctx hp sel
  have hw : pairGet p (1 - sel) = vadd (pairGet p sel) c := loser_eq ctx hp hsel1
  have hncm : vadd n c ∈ G.verts := ctx.hclosed n hnv
  have hwmem : vadd (pairGet p sel) c ∈ G.verts := ctx.hclosed _ hvmem
  have hedge : G.adj (vadd (pairGet p sel) c) (vadd n c) = true := by
    rw [ctx.htrans (pairGet p sel) hvmem n hnv]
    exact hadjvn
  have hcons := hS.2 (vadd (pairGet p sel) c) hwmem (vadd n c) hncm hedge
  have hpw : alookup pm (vadd (pairGet p sel) c) = some p := by
    rw [← hw]
    exact ctx_lookup_of_pairGet ctx hp (1 - sel)
  have hsurvw : survOf pm S (vadd (pairGet p sel) c) = pairGet p sel := by
    rw [survOf, ctx_pairOfD_eq hpw, hsel]
  have hsurvn : survOf pm S (vadd n c) = pairGet np (S np) := by
    rw [survOf, ctx_pairOfD_eq hpart]
  rw [hsurvw, hsurvn] at hcons
  have hnp_mem : n = np.1 ∨ n = np.2 := (ctx.hpm n np hnp).2.1
  have hSnp : S np ≤ 1 := hS.1 np
  refine ⟨?_, by rw [hnpd]; exact hInp⟩
  rw [hnpd]
  by_contra hne
  have hnp2 := (ctx_members ctx hInp).1
  have hn1v := (ctx_members ctx hInp).2.1
  have hother : pairGet np (S np) = vadd n c := by
    by_cases h1 : np.1 = n
    · have hidx : pairIdx np n = 0 := by rw [pairIdx, if_pos h1]
      rw [hidx] at hne
      have hS1 : S np = 1 := by omega
      rw [hS1]
      show np.2 = vadd n c
      rw [hnp2, h1]
    · have hidx : pairIdx np n = 1 := by rw [pairIdx, if_neg h1]
      rw [hidx] at hne
      have hS0 : S np = 0 := by omega
      have h2 : n = np.2 := by
        rcases hnp_mem with h | h
        · exact absurd h.symm h1
        · exact h
      rw [hS0]
      show np.1 = vadd n c
      rw [h2, hnp2, vadd_vadd_cancel np.1 c (ctx.hlen np.1 hn1v)]
  rw [hother] at hcons
  have hfin := ctx.htrans (pairGet p sel) hvmem (vadd n c) hncm
  rw [vadd_vadd_cancel n c (ctx.hlen n hnv)] at hfin
  rw [hcons] at hfin
  rw [hw] at hguard
  rw [G.symm] at hguard
  rw [hfin] at hguard
  cases hguard

theorem filter_length_le_of_imp {α : Type} (l : List α) (p q : α → Bool)
    (h : ∀ x ∈ l, q x = true → p x = true) :
    (l.filter q).length ≤ (l.filter p).length := by
  induction l with
  | nil => exact Nat.le_refl _
  | cons a t ih =>
    have iht := ih fun x hx => h x (List.mem_cons_of_mem _ hx)
    simp only [List.filter_cons]
    by_cases hq : q a = true
    · rw [if_pos hq, if_pos (h a (List.mem_cons_self _ _) hq)]
      simpa using iht
    · rw [if_neg hq]
      by_cases hp : p a = true
      · rw [if_pos hp]
        simp only [List.length_cons]
        omega
      · rw [if_neg hp]
        exact iht

theorem undecidedCount_mono {pm : PairsMap} {ch ch' : Chosen}
    (hmono : ∀ q j, alookup ch q = some j → alookup ch' q = some j) :
    undecidedCount pm ch' ≤ undecidedCount pm ch := by
  apply filter_length_le_of_imp
  intro p _ hq
  cases hl : alookup ch p with
  | none => rfl
  | some j =>
    rw [hmono p j hl] at hq
    cases hq

theorem filter_length_flip {α : Type} :
    ∀ (l : List α), l.Nodup → ∀ (p q : α → Bool) (x : α), x ∈ l →
      p x = true → q x = false → (∀ y ∈ l, y ≠ x → p y = q y) →
      (l.filter q).length + 1 = (l.filter p).length := by
  intro l
  induction l with
  | nil =>
    intro _ p q x hx
    cases hx
  | cons a t ih =>
    intro hnd p q x hx hpx hqx hagree
    have hna := (List.nodup_cons.mp hnd).1
    have hndt := (List.nodup_cons.mp hnd).2
    simp only [List.filter_cons]
    rcases List.mem_cons.mp hx with rfl | hx'
    · rw [if_pos hpx, if_neg (by rw [hqx]; intro hc; cases hc)]
      have hft : t.filter q = t.filter p := by
        apply List.filter_congr
        intro y hy
        exact (hagree y (List.mem_cons_of_mem _ hy) (fun he => hna (he ▸ hy))).symm
      rw [hft]
      simp
    · have hax : a ≠ x := fun he => hna (he ▸ hx')
      have hpa_qa : p a = q a := hagree a (List.mem_cons_self _ _) hax
      have hrec := ih hndt p q x hx' hpx hqx
        fun y hy hne => hagree y (List.mem_cons_of_mem _ hy) hne
      by_cases hqa : q a = true
      · rw [if_pos hqa, if_pos (by rw [hpa_qa]; exact hqa)]
        simp only [List.length_cons]
        omega
      · rw [if_neg hqa, if_neg (by rw [hpa_qa]; exact hqa)]
        exact hrec

theorem undecidedCount_record {pm : PairsMap} {ch : Chosen} {p : VB × VB} (sel : Nat)
    (hIn : p ∈ (pm.map Prod.snd).dedup) (hfresh : alookup ch p = none) :
    undecidedCount pm (ch ++ [(p, sel)]) + 1 = undecidedCount pm ch := by
  apply filter_length_flip _ ((pm.map Prod.snd).nodup_dedup) _ _ p hIn
  · rw [hfresh]
    rfl
  · rw [alookup_append_single hfresh]
    rfl
  · intro y hy hne
    show (alookup ch y).isNone = (alookup (ch ++ [(p, sel)]) y).isNone
    rw [alookup_append]
    cases hl : alookup ch y with
    | some j => rfl
    | none =>
      have hsingle : alookup [(p, sel)] y = none := by
        rw [alookup_cons_eq, if_neg (fun h => hne h.symm)]
        rfl
      rw [hsingle]
      rfl

/-- The pairs newly recorded during a successful extend are themselves
propagation-closed in the final dict: every forced neighbor of a newly
recorded survivor has a chosen pair at the end. -/
theorem extend_new_closed (G : Graph VB) (pm : PairsMap) :
    ∀ fuel : Nat,
      (∀ (pair : VB × VB) (sel : Nat) (ch ch' : Chosen),
        extend G pm fuel pair sel ch = some ch' →
        ∀ p i, alookup ch' p = some i → alookup ch p = none →
          ∀ n ∈ G.neighbors (pairGet p i), G.adj n (pairGet p (1 - i)) = false →
            (alookup ch' (pairOfD pm n)).isSome = true)
      ∧ (∀ (w : VB) (ns : List VB) (ch ch' : Chosen),
        extendNbrs (extend G pm fuel) G pm w ns ch = some ch' →
        ∀ p i, alookup ch' p = some i → alookup ch p = none →
          ∀ n ∈ G.neighbors (pairGet p i), G.adj n (pairGet p (1 - i)) = false →
            (alookup ch' (pairOfD pm n)).isSome = true) := by
  intro fuel
  induction fuel with
  | zero =>
    constructor
    · intro pair sel ch ch' h
      cases h
    · intro w ns
      induction ns with
      | nil =>
        intro ch ch' h p i hp hfresh
        cases h
        rw [hp] at hfresh
        cases hfresh
      | cons n rest ihn =>
        intro ch ch' h p i hp hfresh
        rw [extendNbrs] at h
        by_cases hadj : G.adj n w = true
        · rw [if_pos hadj] at h
          exact ihn ch ch' h p i hp hfresh
        · rw [if_neg hadj] at h
          cases hnest : extend G pm 0 (pairOfD pm n) (pairIdx (pairOfD pm n) n) ch with
          | none => rw [hnest] at h; cases h
          | some ch2 => cases hnest
  | succ f ih =>
    have hext : ∀ (pair : VB × VB) (sel : Nat) (ch ch' : Chosen),
        extend G pm (f + 1) pair sel ch = some ch' →
        ∀ p i, alookup ch' p = some i → alookup ch p = none →
          ∀ n ∈ G.neighbors (pairGet p i), G.adj n (pairGet p (1 - i)) = false →
            (alookup ch' (pairOfD pm n)).isSome = true := by
      intro pair sel ch ch' h p i hp hfresh n hn hguard
      rw [extend_succ_eq] at h
      cases hl : alookup ch pair with
      | some s =>
        rw [hl] at h
        replace h : (if s = sel then some ch else none) = some ch' := h
        by_cases hs : s = sel
        · rw [if_pos hs] at h
          injection h with h'
          subst h'
          rw [hp] at hfresh
          cases hfresh
        · rw [if_neg hs] at h
          cases h
      | none =>
        rw [hl] at h
        replace h : extendNbrs (extend G pm f) G pm (pairGet pair (1 - sel))
            (G.neighbors (pairGet pair sel)) (ch ++ [(pair, sel)]) = some ch' := h
        by_cases hpp : p = pair
        · subst hpp
          -- the newly recorded pair itself: its value is sel and its forced
          -- neighbors are present thanks to extendNbrs_forced
          have hval : alookup ch' p = some sel :=
            (extend_mono G pm f).2 _ _ _ _ h p sel (alookup_append_single hl)
          rw [hval] at hp
          injection hp with hp'
          subst hp'
          have := extendNbrs_forced G pm f _ _ _ _ h n hn hguard
          rw [this]
          rfl
        · -- an entry recorded inside the neighbor loop
          have hfresh2 : alookup (ch ++ [(pair, sel)]) p = none := by
            rw [alookup_append, hfresh]
            rw [alookup_cons_eq, if_neg (fun he => hpp he.symm)]
            rfl
          exact ih.2 _ _ _ _ h p i hp hfresh2 n hn hguard
    refine ⟨hext, ?_⟩
    intro w ns
    induction ns with
    | nil =>
      intro ch ch' h p i hp hfresh
      cases h
      rw [hp] at hfresh
      cases hfresh
    | cons n rest ihn =>
      intro ch ch' h p i hp hfresh m hm hguard
      rw [extendNbrs] at h
      by_cases hadj : G.adj n w = true
      · rw [if_pos hadj] at h
        exact ihn ch ch' h p i hp hfresh m hm hguard
      · rw [if_neg hadj] at h
        cases hnest : extend G pm (f + 1) (pairOfD pm n) (pairIdx (pairOfD pm n) n) ch with
        | none => rw [hnest] at h; cases h
        | some ch2 =>
          rw [hnest] at h
          cases hmid : alookup ch2 p with
          | some j =>
            -- p was recorded during the nested extend call
            have hj : alookup ch' p = some j := (extend_mono G pm (f + 1)).2 _ _ _ _ h p j hmid
            rw [hj] at hp
            injection hp with hp'
            subst hp'
            have := hext _ _ _ _ hnest p j hmid hfresh m hm hguard
            obtain ⟨q, hq⟩ := Option.isSome_iff_exists.mp this
            rw [(extend_mono G pm (f + 1)).2 _ _ _ _ h _ _ hq]
            rfl
          | none =>
            -- p was recorded later in the loop
            exact ihn ch2 ch' h p i hp hmid m hm hguard

theorem InPm_mem_dedup {pm : PairsMap} {p : VB × VB} (h : InPm pm p) :
    p ∈ (pm.map Prod.snd).dedup := by
  obtain ⟨x, hx⟩ := h
  exact List.mem_dedup.mpr (List.mem_map.mpr ⟨(x, p), alookup_mem hx, rfl⟩)

/-- Completeness of the extend recursion: a call that agrees with a
consistent selection compatible with the current chosen dict succeeds (with
enough fuel, which the number of undecided pairs bounds), and the result is
still compatible with that selection. -/
theorem extend_complete {G : Graph VB} {c : VB} {pm : PairsMap}
    (ctx : SquashCtx G c pm) {S : VB × VB → Nat} (hS : ConsistentSel G pm S) :
    ∀ fuel : Nat,
      (∀ (p : VB × VB) (sel : Nat) (ch : Chosen),
        InPm pm p → S p = sel → Compat S ch → ChKeys pm ch →
        undecidedCount pm ch < fuel →
        ∃ ch', extend G pm fuel p sel ch = some ch' ∧ Compat S ch' ∧ ChKeys pm ch' ∧
          undecidedCount pm ch' ≤ undecidedCount pm ch)
      ∧ (∀ (w : VB) (ns : List VB) (ch : Chosen),
        (∀ n ∈ ns, G.adj n w = false →
            S (pairOfD pm n) = pairIdx (pairOfD pm n) n ∧ InPm pm (pairOfD pm n)) →
        Compat S ch → ChKeys pm ch →
        undecidedCount pm ch < fuel →
        ∃ ch', extendNbrs (extend G pm fuel) G pm w ns ch = some ch' ∧ Compat S ch' ∧
          ChKeys pm ch' ∧ undecidedCount pm ch' ≤ undecidedCount pm ch) := by
  intro fuel
  induction fuel with
  | zero =>
    constructor
    · intro p sel ch _ _ _ _ hcount
      omega
    · intro w ns ch _ _ _ hcount
      omega
  | succ f ih =>
    have hext : ∀ (p : VB × VB) (sel : Nat) (ch : Chosen),
        InPm pm p → S p = sel → Compat S ch → ChKeys pm ch →
        undecidedCount pm ch < f + 1 →
        ∃ ch', extend G pm (f + 1) p sel ch = some ch' ∧ Compat S ch' ∧ ChKeys pm ch' ∧
          undecidedCount pm ch' ≤ undecidedCount pm ch := by
      intro p sel ch hIn hsel hcompat hkeys hcount
      cases hl : alookup ch p with
      | some s =>
        have hs : s = sel := by rw [← hsel]; exact (hcompat p s hl).symm
        refine ⟨ch, ?_, hcompat, hkeys, Nat.le_refl _⟩
        rw [extend_succ_eq, hl]
        show (if s = sel then some ch else none) = some ch
        rw [if_pos hs]
      | none =>
        have hInd : p ∈ (pm.map Prod.snd).dedup := InPm_mem_dedup hIn
        have hrec := undecidedCount_record sel hInd hl
        have hcompat2 : Compat S (ch ++ [(p, sel)]) := by
          intro q j hq
          rw [alookup_append] at hq
          cases hlq : alookup ch q with
          | some j0 =>
            rw [hlq] at hq
            replace hq : some j0 = some j := hq
            injection hq with he
            subst he
            exact hcompat q j0 hlq
          | none =>
            rw [hlq] at hq
            replace hq : alookup [(p, sel)] q = some j := hq
            obtain ⟨he1, he2⟩ := alookup_single_eq hq
            subst he1
            subst he2
            exact hsel
        have hkeys2 : ChKeys pm (ch ++ [(p, sel)]) := by
          intro q j hq
          rw [alookup_append] at hq
          cases hlq : alookup ch q with
          | some j0 =>
            rw [hlq] at hq
            exact hkeys q j0 hlq
          | none =>
            rw [hlq] at hq
            replace hq : alookup [(p, sel)] q = some j := hq
            obtain ⟨he1, _⟩ := alookup_single_eq hq
            subst he1
            exact hIn
        have hforce : ∀ n ∈ G.neighbors (pairGet p sel),
            G.adj n (pairGet p (1 - sel)) = false →
            S (pairOfD pm n) = pairIdx (pairOfD pm n) n ∧ InPm pm (pairOfD pm n) :=
          fun n hn hguard => forced_sel_agrees ctx hS hIn hsel hn hguard
        obtain ⟨ch', hch', hc2, hk2, hcnt⟩ := ih.2 (pairGet p (1 - sel))
          (G.neighbors (pairGet p sel)) (ch ++ [(p, sel)]) hforce hcompat2 hkeys2 (by omega)
        refine ⟨ch', ?_, hc2, hk2, by omega⟩
        rw [extend_succ_eq, hl]
        exact hch'
    refine ⟨hext, ?_⟩
    intro w ns
    induction ns with
    | nil =>
      intro ch _ hcompat hkeys _
      exact ⟨ch, rfl, hcompat, hkeys, Nat.le_refl _⟩
    | cons n rest ihn =>
      intro ch hforce hcompat hkeys hcount
      by_cases hadj : G.adj n w = true
      · obtain ⟨ch', h1, h2, h3, h4⟩ :=
          ihn ch (fun m hm => hforce m (List.mem_cons_of_mem _ hm)) hcompat hkeys hcount
        refine ⟨ch', ?_, h2, h3, h4⟩
        rw [extendNbrs, if_pos hadj]
        exact h1
      · have hguard : G.adj n w = false := by
          cases h : G.adj n w with
          | false => rfl
          | true => exact absurd h hadj
        obtain ⟨hagree, hInp⟩ := hforce n (List.mem_cons_self _ _) hguard
        obtain ⟨ch1, he1, hc1, hk1, hcnt1⟩ :=
          hext (pairOfD pm n) (pairIdx (pairOfD pm n) n) ch hInp hagree hcompat hkeys hcount
        obtain ⟨ch', h1, h2, h3, h4⟩ :=
          ihn ch1 (fun m hm => hforce m (List.mem_cons_of_mem _ hm)) hc1 hk1 (by omega)
        refine ⟨ch', ?_, h2, h3, by omega⟩
        rw [extendNbrs, if_neg (by rw [hguard]; intro hcontr; cases hcontr), he1]
        exact h1

/-- Flip the selection on every pair that is not yet chosen. -/
def flipOutside (ch : Chosen) (S : VB × VB → Nat) : VB × VB → Nat :=
  fun q => if (alookup ch q).isSome then S q else 1 - S q

theorem survOf_mem {G : Graph VB} {c : VB} {pm : PairsMap} (ctx : SquashCtx G c pm)
    (S : VB × VB → Nat) {y : VB} (hy : y ∈ G.verts) : survOf pm S y ∈ G.verts := by
  obtain ⟨py, hpy⟩ := ctx_lookup_mem ctx hy
  rw [survOf, ctx_pairOfD_eq hpy]
  exact ctx_pairGet_mem ctx ⟨y, hpy⟩ _

/-- The mixed case of the flip argument: an edge from a vertex of a decided
pair to a vertex of an undecided pair.  Because the chosen dict is
propagation-closed, the undecided endpoint (or its partner, whichever is a
neighbor of the decided survivor) must be adjacent to the decided loser,
which makes the decided survivor adjacent to BOTH members of the undecided
pair — so flipping the undecided side keeps the edge. -/
theorem flip_mixed {G : Graph VB} {c : VB} {pm : PairsMap} (ctx : SquashCtx G c pm)
    {S : VB × VB → Nat} (hS : ConsistentSel G pm S) {ch : Chosen}
    (hcompat : Compat S ch) (hclosed : ChClosed G pm ch)
    {u x : VB} (hu : u ∈ G.verts) (hx : x ∈ G.verts) (hadj : G.adj u x = true)
    (hdu : (alookup ch (pairOfD pm u)).isSome = true)
    (hdx : (alookup ch (pairOfD pm x)).isSome = false) :
    G.adj (survOf pm S u) (vadd (survOf pm S x) c) = true := by
  obtain ⟨pu, hpu⟩ := ctx_lookup_mem ctx hu
  obtain ⟨px, hpx⟩ := ctx_lookup_mem ctx hx
  have hpud : pairOfD pm u = pu := ctx_pairOfD_eq hpu
  have hpxd : pairOfD pm x = px := ctx_pairOfD_eq hpx
  rw [hpud] at hdu
  rw [hpxd] at hdx
  obtain ⟨i, hchu⟩ := Option.isSome_iff_exists.mp hdu
  have hiS : S pu = i := hcompat pu i hchu
  have hInu : InPm pm pu := ⟨u, hpu⟩
  have hInx : InPm pm px := ⟨x, hpx⟩
  have hi1 : i ≤ 1 := hiS ▸ hS.1 pu
  have hloser : pairGet pu (1 - i) = vadd (pairGet pu i) c := loser_eq ctx hInu hi1
  have humem : u = pu.1 ∨ u = pu.2 := (ctx.hpm u pu hpu).2.1
  have hsurvu : survOf pm S u = pairGet pu i := by rw [survOf, hpud, hiS]
  have hsurvx : survOf pm S x = pairGet px (S px) := by rw [survOf, hpxd]
  have hamem : pairGet pu i ∈ G.verts := ctx_pairGet_mem ctx hInu i
  have hclo := hclosed pu i hchu
  have hxc_mem : vadd x c ∈ G.verts := ctx.hclosed x hx
  have hswap : G.adj (pairGet pu i) (vadd x c) = G.adj (vadd (pairGet pu i) c) x := by
    have h := ctx.htrans (pairGet pu i) hamem (vadd x c) hxc_mem
    rw [vadd_vadd_cancel x c (ctx.hlen x hx)] at h
    exact h.symm
  have husplit : u = pairGet pu i ∨ u = pairGet pu (1 - i) := by
    cases i with
    | zero => exact humem
    | succ k =>
      have hk : k = 0 := by omega
      subst hk
      exact humem.symm
  have hpx2d : pairOfD pm (vadd x c) = px := ctx_pairOfD_eq (ctx_partner_lookup ctx hpx)
  have hfacts : G.adj (pairGet pu i) x = true ∧ G.adj (pairGet pu i) (vadd x c) = true := by
    rcases husplit with h1 | h1
    · -- u is the decided survivor
      have hax : G.adj (pairGet pu i) x = true := by rw [← h1]; exact hadj
      have hxl : G.adj x (pairGet pu (1 - i)) = true := by
        cases hq : G.adj x (pairGet pu (1 - i)) with
        | true => rfl
        | false =>
          have hiso := hclo x (List.mem_filter.mpr ⟨hx, hax⟩) hq
          rw [hpxd] at hiso
          rw [hiso] at hdx
          cases hdx
      rw [hloser] at hxl
      refine ⟨hax, ?_⟩
      rw [hswap, G.symm]
      exact hxl
    · -- u is the decided loser
      have hul : G.adj (vadd (pairGet pu i) c) x = true := by
        rw [← hloser, ← h1]
        exact hadj
      have hax2 : G.adj (pairGet pu i) (vadd x c) = true := by
        rw [hswap]
        exact hul
      have hx2l : G.adj (vadd x c) (pairGet pu (1 - i)) = true := by
        cases hq : G.adj (vadd x c) (pairGet pu (1 - i)) with
        | true => rfl
        | false =>
          have hiso := hclo (vadd x c) (List.mem_filter.mpr ⟨hxc_mem, hax2⟩) hq
          rw [hpx2d] at hiso
          rw [hiso] at hdx
          cases hdx
      rw [hloser] at hx2l
      have hxa : G.adj x (pairGet pu i) = true := by
        have h := ctx.htrans x hx (pairGet pu i) hamem
        rw [← h]
        exact hx2l
      refine ⟨?_, hax2⟩
      rw [G.symm]
      exact hxa
  have hbmem : pairGet px (S px) = x ∨ pairGet px (S px) = vadd x c := by
    have hxmem : x = px.1 ∨ x = px.2 := (ctx.hpm x px hpx).2.1
    have hpx2 : px.2 = vadd px.1 c := (ctx_members ctx hInx).1
    have hx1v : px.1 ∈ G.verts := (ctx_members ctx hInx).2.1
    rcases pairGet_cases px (S px) with h | h
    · rcases hxmem with h1 | h1
      · left
        rw [h, ← h1]
      · right
        rw [h]
        rw [h1, hpx2, vadd_vadd_cancel px.1 c (ctx.hlen px.1 hx1v)]
    · rcases hxmem with h1 | h1
      · right
        rw [h, hpx2, ← h1]
      · left
        rw [h, ← h1]
  rw [hsurvu, hsurvx]
  rcases hbmem with hb | hb
  · rw [hb]
    exact hfacts.2
  · rw [hb, vadd_vadd_cancel x c (ctx.hlen x hx)]
    exact hfacts.1

/-- Flipping the selection outside the chosen dict preserves consistency,
provided the chosen dict is compatible and propagation-closed. -/
theorem flip_consistent {G : Graph VB} {c : VB} {pm : PairsMap} (ctx : SquashCtx G c pm)
    {S : VB × VB → Nat} {ch : Chosen} (hS : ConsistentSel G pm S)
    (hcompat : Compat S ch) (hclosed : ChClosed G pm ch) :
    ConsistentSel G pm (flipOutside ch S) := by
  constructor
  · intro p
    unfold flipOutside
    by_cases hd : (alookup ch p).isSome = true
    · rw [if_pos hd]
      exact hS.1 p
    · rw [if_neg hd]
      omega
  · intro u hu x hx hadj
    obtain ⟨pu, hpu⟩ := ctx_lookup_mem ctx hu
    obtain ⟨px, hpx⟩ := ctx_lookup_mem ctx hx
    have hpud : pairOfD pm u = pu := ctx_pairOfD_eq hpu
    have hpxd : pairOfD pm x = px := ctx_pairOfD_eq hpx
    have hfu : survOf pm (flipOutside ch S) u =
        (if (alookup ch pu).isSome = true then survOf pm S u
         else vadd (survOf pm S u) c) := by
      rw [survOf, survOf, hpud]
      unfold flipOutside
      by_cases hd : (alookup ch pu).isSome = true
      · rw [if_pos hd, if_pos hd]
      · rw [if_neg hd, if_neg hd]
        exact loser_eq ctx ⟨u, hpu⟩ (hS.1 pu)
    have hfx : survOf pm (flipOutside ch S) x =
        (if (alookup ch px).isSome = true then survOf pm S x
         else vadd (survOf pm S x) c) := by
      rw [survOf, survOf, hpxd]
      unfold flipOutside
      by_cases hd : (alookup ch px).isSome = true
      · rw [if_pos hd, if_pos hd]
      · rw [if_neg hd, if_neg hd]
        exact loser_eq ctx ⟨x, hpx⟩ (hS.1 px)
    rw [hfu, hfx]
    by_cases hdu : (alookup ch pu).isSome = true
    · by_cases hdx : (alookup ch px).isSome = true
      · rw [if_pos hdu, if_pos hdx]
        exact hS.2 u hu x hx hadj
      · rw [if_pos hdu, if_neg hdx]
        have hdx' : (alookup ch (pairOfD pm x)).isSome = false := by
          rw [hpxd]
          cases hb : (alookup ch px).isSome with
          | false => rfl
          | true => exact absurd hb hdx
        exact flip_mixed ctx hS hcompat hclosed hu hx hadj (by rw [hpud]; exact hdu) hdx'
    · by_cases hdx : (alookup ch px).isSome = true
      · rw [if_neg hdu, if_pos hdx]
        have hdu' : (alookup ch (pairOfD pm u)).isSome = false := by
          rw [hpud]
          cases hb : (alookup ch pu).isSome with
          | false => rfl
          | true => exact absurd hb hdu
        rw [G.symm]
        exact flip_mixed ctx hS hcompat hclosed hx hu (by rw [G.symm]; exact hadj)
          (by rw [hpxd]; exact hdx) hdu'
      · rw [if_neg hdu, if_neg hdx]
        have hsu : survOf pm S u ∈ G.verts := survOf_mem ctx S hu
        have hsx : survOf pm S x ∈ G.verts := survOf_mem ctx S hx
        rw [ctx.htrans (survOf pm S u) hsu (survOf pm S x) hsx]
        exact hS.2 u hu x hx hadj

/-- The while loop over the undecided pairs succeeds whenever some
consistent selection compatible with the current chosen dict exists and the
dict is propagation-closed: popping an undecided pair, the compatible
selection (flipped outside the dict if needed, which keeps it consistent)
selects 0 for it, so the extend call succeeds. -/
theorem squashLoop_complete {G : Graph VB} {c : VB} {pm : PairsMap}
    (ctx : SquashCtx G c pm) :
    ∀ (l : List (VB × VB)) (ch : Chosen),
      (∀ p ∈ l, InPm pm p) →
      (∃ S, ConsistentSel G pm S ∧ Compat S ch) →
      ChClosed G pm ch → ChKeys pm ch →
      ∃ ch', squashLoop G pm ((pm.map Prod.snd).dedup.length + 1) l ch = some ch' := by
  intro l
  induction l with
  | nil =>
    intro ch _ _ _ _
    exact ⟨ch, rfl⟩
  | cons p rest ih =>
    intro ch hlp hex hclosed hkeys
    obtain ⟨S, hS, hcompat⟩ := hex
    by_cases hd : (alookup ch p).isSome = true
    · obtain ⟨ch', h'⟩ := ih ch (fun q hq => hlp q (List.mem_cons_of_mem _ hq))
        ⟨S, hS, hcompat⟩ hclosed hkeys
      refine ⟨ch', ?_⟩
      rw [squashLoop, if_pos hd]
      exact h'
    · have hInp : InPm pm p := hlp p (List.mem_cons_self _ _)
      have hfresh : alookup ch p = none := by
        cases hl : alookup ch p with
        | none => rfl
        | some j =>
          rw [hl] at hd
          exact absurd rfl hd
      have hkey : ∃ S', ConsistentSel G pm S' ∧ Compat S' ch ∧ S' p = 0 := by
        by_cases h0 : S p = 0
        · exact ⟨S, hS, hcompat, h0⟩
        · refine ⟨flipOutside ch S, flip_consistent ctx hS hcompat hclosed, ?_, ?_⟩
          · intro q j hq
            unfold flipOutside
            rw [if_pos (by rw [hq]; rfl)]
            exact hcompat q j hq
          · unfold flipOutside
            rw [if_neg (by rw [hfresh]; intro hcontr; cases hcontr)]
            have := hS.1 p
            omega
      obtain ⟨S', hS', hcompat', hp0⟩ := hkey
      have hcount : undecidedCount pm ch < (pm.map Prod.snd).dedup.length + 1 :=
        Nat.lt_succ_of_le (List.length_filter_le _ _)
      obtain ⟨ch2, hext, hcomp2, hkeys2, _⟩ :=
        (extend_complete ctx hS' ((pm.map Prod.snd).dedup.length + 1)).1 p 0 ch hInp hp0
          hcompat' hkeys hcount
      have hclosed2 : ChClosed G pm ch2 := by
        intro q i hq n hn hguard
        cases hold : alookup ch q with
        | some j =>
          have hj : alookup ch2 q = some j := (extend_mono G pm _).1 _ _ _ _ hext q j hold
          rw [hj] at hq
          injection hq with he
          subst he
          obtain ⟨r, hr⟩ := Option.isSome_iff_exists.mp (hclosed q j hold n hn hguard)
          rw [(extend_mono G pm _).1 _ _ _ _ hext _ _ hr]
          rfl
        | none =>
          exact (extend_new_closed G pm _).1 _ _ _ _ hext q i hq hold n hn hguard
      obtain ⟨ch', h'⟩ := ih ch2 (fun q hq => hlp q (List.mem_cons_of_mem _ hq))
        ⟨S', hS', hcomp2⟩ hclosed2 hkeys2
      refine ⟨ch', ?_⟩
      rw [squashLoop, if_neg hd, hext]
      exact h'

/-! ## Claim C3 (statement) -/

/-- C3: completeness of squash_cube.  For a cube-like graph (here: a graph
whose vertex vectors have the length of the nonzero displacement c, whose
vertex set is closed under adding c and whose adjacency is invariant under
translating both ends by c — every undirected Cayley graph over GF(2)^n
with c in the space has all three) on which no pair (v, v+c) is an edge
(equivalently, squashPairs succeeds): whenever some consistent global
selection exists, squash_cube returns a map.  In particular a propagation
contradiction on the first undecided pair with choice 0 — the only way the
inconsistent result arises — implies that no consistent global selection
exists at all, so returning failure without trying choice 1 is complete. -/
theorem squash_cube_complete (G : Graph VB) (c : VB) (pm : PairsMap)
    (hlen : ∀ v ∈ G.verts, v.length = c.length)
    (hcnz : c ≠ List.replicate c.length false)
    (hcl : ∀ v ∈ G.verts, vadd v c ∈ G.verts)
    (htr : ∀ u ∈ G.verts, ∀ v ∈ G.verts, G.adj (vadd u c) (vadd v c) = G.adj u v)
    (hpairs : squashPairs G c = some pm)
    (hsel : ∃ S, ConsistentSel G pm S) :
    ∃ h, squashCube G c = .ok h := by
  obtain ⟨hinv, hnd, htot, _⟩ := buildPairs_inv G c hlen hcnz hcl G.verts [] pm
    (fun v hv => hv) (by intro x p h; cases h) List.nodup_nil hpairs
  have ctx : SquashCtx G c pm := ⟨hlen, hcnz, hcl, htr, hinv, htot, hnd⟩
  obtain ⟨S, hS⟩ := hsel
  have hall : ∀ p ∈ (pm.map Prod.snd).dedup, InPm pm p := by
    intro p hp
    obtain ⟨e, he, hsnd⟩ := List.mem_map.mp (List.mem_dedup.mp hp)
    refine ⟨e.1, ?_⟩
    apply alookup_of_mem_of_nodup _ hnd
    rw [show (e.1, p) = e from by rw [← hsnd]]
    exact he
  obtain ⟨chf, hloop⟩ := squashLoop_complete ctx (pm.map Prod.snd).dedup []
    hall ⟨S, hS, by intro p i h; cases h⟩ (by intro p i h; cases h)
    (by intro p i h; cases h)
  refine ⟨homOfChosen chf, ?_⟩
  unfold squashCube
  rw [hpairs]
  show (match squashLoop G pm ((pm.map Prod.snd).dedup.length + 1)
      (pm.map Prod.snd).dedup [] with
    | none => SquashResult.inconsistent
    | some ch => SquashResult.ok (homOfChosen ch)) = _
  rw [hloop]

theorem squash_cube_complete_witness :
    ∃ h, squashCube exCube3 [false, false, true] = .ok h :=
  squash_cube_complete exCube3 [false, false, true] pmEx
    (by decide) (by decide) (by decide) (by decide) (by decide)
    ⟨fun _ => 0, fun _ => Nat.zero_le 1, by decide⟩
